import Mathlib

/-!
Verification of the dictionary-based multi-phase entity matcher of
structflo-ner (`structflo/ner/fast/`): text normalization and variant
expansion (`_normalize.py`), gazetteer loading and accession-pattern
derivation (`_loader.py`), and the three-phase matching engine
(`_matcher.py`).

Strings are modelled as `List Char` (a Python `str` is a sequence of code
points).  Python's Unicode-aware character predicates (`str.lower`,
`str.isalnum`, `str.isupper`, regex `\w`, `\d`, `\s`) are modelled on the
repertoire this program actually works with — ASCII plus the Greek
letters of the gazetteer tables; on that repertoire the model agrees with
Python.  Floating-point similarity scores are represented exactly as
numerator/denominator pairs of naturals; on the integer sizes that occur
here the exact comparisons agree with the double-precision ones performed
by `rapidfuzz`.
-/

namespace StructfloNer

/-! ## Character model -/

/-- Lower-casing table: ASCII `A`–`Z` plus the Greek capitals used by the
Greek-letter mapping of `_normalize.py`.  Models Python `str.lower()` on
this repertoire (`do_lower` in CPython). -/
def LOWER_TABLE : List (Char × Char) :=
  [('A', 'a'), ('B', 'b'), ('C', 'c'), ('D', 'd'), ('E', 'e'), ('F', 'f'),
   ('G', 'g'), ('H', 'h'), ('I', 'i'), ('J', 'j'), ('K', 'k'), ('L', 'l'),
   ('M', 'm'), ('N', 'n'), ('O', 'o'), ('P', 'p'), ('Q', 'q'), ('R', 'r'),
   ('S', 's'), ('T', 't'), ('U', 'u'), ('V', 'v'), ('W', 'w'), ('X', 'x'),
   ('Y', 'y'), ('Z', 'z'),
   ('Α', 'α'), ('Β', 'β'), ('Γ', 'γ'), ('Δ', 'δ'), ('Ε', 'ε'), ('Ζ', 'ζ'),
   ('Η', 'η'), ('Θ', 'θ'), ('Ι', 'ι'), ('Κ', 'κ'), ('Λ', 'λ'), ('Μ', 'μ'),
   ('Ν', 'ν'), ('Ξ', 'ξ'), ('Ο', 'ο'), ('Π', 'π'), ('Ρ', 'ρ'), ('Σ', 'σ'),
   ('Τ', 'τ'), ('Υ', 'υ'), ('Φ', 'φ'), ('Χ', 'χ'), ('Ψ', 'ψ'), ('Ω', 'ω')]

/-- Model of Python `str.lower()` on a single code point. -/
def pyLower (c : Char) : Char :=
  match LOWER_TABLE.find? (fun e => e.1 = c) with
  | some e => e.2
  | none => c

/-- Model of the Python regex `\s` class / `str.strip()` whitespace set
(ASCII whitespace). -/
def pyIsSpace (c : Char) : Bool :=
  c = ' ' || c = '\t' || c = '\n' || c = '\x0d' || c = '\x0b' || c = '\x0c'

/-- The Unicode dash variants replaced by `_DASH_RE` in `_normalize.py`. -/
def DASH_CHARS : List Char :=
  ['‐', '‑', '‒', '–', '—', '―',
   '﹘', '﹣', '－']

def isPyDash (c : Char) : Bool := DASH_CHARS.contains c

/-- One character of the `_DASH_RE.sub("-", ·)` step. -/
def dashFix (c : Char) : Char := if isPyDash c then '-' else c

/-- Model of Python `str.isalnum()` on the modelled repertoire:
ASCII letters and digits plus Greek letters (both cases). -/
def pyIsAlnum (c : Char) : Bool :=
  c.isAlphanum || (0x391 ≤ c.toNat && c.toNat ≤ 0x3C9 && c.toNat != 0x3A2)

/-- Model of the Python regex `\w` class: alphanumerics plus underscore
(Python's `\w` is exactly `str.isalnum()` plus `_` and connector
punctuation; alphanumerics are always word characters). -/
def pyIsWordChar (c : Char) : Bool := pyIsAlnum c || c = '_'

/-- Model of Python `str.isupper()` on a single character of the modelled
repertoire: the upper-case letters are the keys of `LOWER_TABLE`. -/
def pyIsUpper (c : Char) : Bool := (LOWER_TABLE.find? (fun e => e.1 = c)).isSome

def isAsciiDigit (c : Char) : Bool := '0' ≤ c && c ≤ '9'

def isAsciiLetter (c : Char) : Bool := ('a' ≤ c && c ≤ 'z') || ('A' ≤ c && c ≤ 'Z')

def isAsciiAlnum (c : Char) : Bool := isAsciiLetter c || isAsciiDigit c

/-! ## normalize (`_normalize.py`) -/

/-- The `_WHITESPACE_RE.sub(" ", ·)` step: every maximal run of whitespace
becomes a single space.  The boolean flag records whether the previous
character was part of a whitespace run. -/
def collapseWsAux : Bool → List Char → List Char
  | _, [] => []
  | prevSpace, c :: rest =>
    if pyIsSpace c then
      match prevSpace with
      | true => collapseWsAux true rest
      | false => ' ' :: collapseWsAux true rest
    else c :: collapseWsAux false rest

def collapseWs (l : List Char) : List Char := collapseWsAux false l

/-- Remove trailing whitespace (the right half of Python `str.strip()`). -/
def stripEnd (l : List Char) : List Char := ((l.reverse).dropWhile pyIsSpace).reverse

/-- Model of Python `str.strip()`. -/
def stripWs (l : List Char) : List Char := stripEnd (l.dropWhile pyIsSpace)

/-- `normalize` from `_normalize.py`: lowercase, unify dashes, collapse
whitespace runs to a single space, strip. -/
def normalize (l : List Char) : List Char :=
  stripWs (collapseWs ((l.map pyLower).map dashFix))

/-! ### Facts about the character model -/

theorem find?_lower_value_none :
    ∀ p ∈ LOWER_TABLE, LOWER_TABLE.find? (fun e => e.1 = p.2) = none := by decide

theorem pyLower_idem (c : Char) : pyLower (pyLower c) = pyLower c := by
  unfold pyLower
  cases h : LOWER_TABLE.find? (fun e => e.1 = c) with
  | none => rw [h]
  | some p =>
    have hmem : p ∈ LOWER_TABLE := List.mem_of_find?_eq_some h
    rw [find?_lower_value_none p hmem]

theorem pyLower_space (c : Char) (h : pyIsSpace c = true) : pyLower c = c := by
  have : c = ' ' ∨ c = '\t' ∨ c = '\n' ∨ c = '\x0d' ∨ c = '\x0b' ∨ c = '\x0c' := by
    simp only [pyIsSpace, Bool.or_eq_true, decide_eq_true_eq] at h
    tauto
  rcases this with h | h | h | h | h | h <;> subst h <;> decide

theorem pyIsSpace_pyLower (c : Char) : pyIsSpace (pyLower c) = pyIsSpace c := by
  unfold pyLower
  cases h : LOWER_TABLE.find? (fun e => e.1 = c) with
  | none => rfl
  | some p =>
    have hmem : p ∈ LOWER_TABLE := List.mem_of_find?_eq_some h
    have hc : p.1 = c := by
      have := List.find?_some h
      simpa using this
    subst hc
    revert hmem
    have : ∀ q ∈ LOWER_TABLE, pyIsSpace q.2 = pyIsSpace q.1 := by decide
    exact fun hmem => this p hmem

theorem isPyDash_pyLower_of_not_dash (c : Char) (h : isPyDash c = false) :
    isPyDash (pyLower c) = false := by
  unfold pyLower
  cases hf : LOWER_TABLE.find? (fun e => e.1 = c) with
  | none => exact h
  | some p =>
    have hmem : p ∈ LOWER_TABLE := List.mem_of_find?_eq_some hf
    revert hmem
    have : ∀ q ∈ LOWER_TABLE, isPyDash q.2 = false := by decide
    exact fun hmem => this p hmem

theorem isPyDash_dashFix (c : Char) : isPyDash (dashFix c) = false := by
  unfold dashFix
  by_cases h : isPyDash c = true
  · simp [h]; decide
  · simp only [Bool.not_eq_true] at h
    simp [h]

theorem pyLower_dashFix_pyLower (c : Char) :
    pyLower (dashFix (pyLower c)) = dashFix (pyLower c) := by
  unfold dashFix
  by_cases h : isPyDash (pyLower c) = true
  · simp [h]; decide
  · simp only [Bool.not_eq_true] at h
    simp [h, pyLower_idem]

theorem pyIsAlnum_word (c : Char) (h : pyIsAlnum c = true) : pyIsWordChar c = true := by
  simp [pyIsWordChar, h]

/-! ### Whitespace collapse and strip -/

/-- The head of the list, if any, is not whitespace. -/
def headNotSpace : List Char → Prop
  | [] => True
  | c :: _ => pyIsSpace c = false

/-- The last element, if any, is not whitespace. -/
def lastNotSpace (l : List Char) : Prop := headNotSpace l.reverse

/-- No two adjacent whitespace characters. -/
def NoAdjSpace (l : List Char) : Prop :=
  List.Chain' (fun a b => ¬(pyIsSpace a = true ∧ pyIsSpace b = true)) l

theorem mem_collapseWsAux {c : Char} :
    ∀ (b : Bool) (l : List Char), c ∈ collapseWsAux b l →
      c = ' ' ∨ (c ∈ l ∧ pyIsSpace c = false) := by
  intro b l
  induction l generalizing b with
  | nil => intro h; cases h
  | cons d rest ih =>
    intro h
    by_cases hd : pyIsSpace d = true
    · cases b with
      | true =>
        simp only [collapseWsAux, hd, if_pos] at h
        rcases ih true h with h1 | ⟨h1, h2⟩
        · exact Or.inl h1
        · exact Or.inr ⟨List.mem_cons_of_mem d h1, h2⟩
      | false =>
        simp only [collapseWsAux, hd, if_pos] at h
        rcases List.mem_cons.mp h with h1 | h1
        · exact Or.inl h1
        · rcases ih true h1 with h2 | ⟨h2, h3⟩
          · exact Or.inl h2
          · exact Or.inr ⟨List.mem_cons_of_mem d h2, h3⟩
    · simp only [Bool.not_eq_true] at hd
      simp only [collapseWsAux, hd] at h
      rcases List.mem_cons.mp h with h1 | h1
      · subst h1; exact Or.inr ⟨List.mem_cons_self c rest, hd⟩
      · rcases ih false h1 with h2 | ⟨h2, h3⟩
        · exact Or.inl h2
        · exact Or.inr ⟨List.mem_cons_of_mem d h2, h3⟩

theorem headNotSpace_collapseWsAux_true :
    ∀ l : List Char, headNotSpace (collapseWsAux true l) := by
  intro l
  induction l with
  | nil => trivial
  | cons d rest ih =>
    by_cases hd : pyIsSpace d = true
    · simpa only [collapseWsAux, hd, if_pos] using ih
    · simp only [Bool.not_eq_true] at hd
      simp only [collapseWsAux, hd]
      rw [if_neg (by simp)]
      exact hd

theorem noAdjSpace_collapseWsAux : ∀ (b : Bool) (l : List Char),
    NoAdjSpace (collapseWsAux b l) := by
  intro b l
  induction l generalizing b with
  | nil => exact List.chain'_nil
  | cons d rest ih =>
    by_cases hd : pyIsSpace d = true
    · cases b with
      | true => simpa only [collapseWsAux, hd, if_pos] using ih true
      | false =>
        simp only [collapseWsAux, hd, if_pos]
        rw [NoAdjSpace, List.chain'_cons']
        refine ⟨?_, ih true⟩
        intro y hy
        have hh := headNotSpace_collapseWsAux_true rest
        cases hcol : collapseWsAux true rest with
        | nil => rw [hcol] at hy; cases hy
        | cons z zs =>
          rw [hcol] at hy
          simp only [List.head?_cons, Option.mem_def, Option.some.injEq] at hy
          subst hy
          rw [hcol] at hh
          intro ⟨_, hy2⟩
          rw [headNotSpace] at hh
          rw [hh] at hy2
          cases hy2
    · simp only [Bool.not_eq_true] at hd
      simp only [collapseWsAux, hd]
      rw [if_neg (by simp)]
      rw [NoAdjSpace, List.chain'_cons']
      refine ⟨?_, ih false⟩
      intro y _
      intro ⟨hy1, _⟩
      rw [hd] at hy1
      cases hy1

theorem collapseWsAux_eq_self : ∀ (b : Bool) (l : List Char),
    (∀ c ∈ l, pyIsSpace c = true → c = ' ') → NoAdjSpace l →
    (b = true → headNotSpace l) → collapseWsAux b l = l := by
  intro b l
  induction l generalizing b with
  | nil => intro _ _ _; rfl
  | cons d rest ih =>
    intro h1 h2 h3
    by_cases hd : pyIsSpace d = true
    · cases b with
      | true =>
        exfalso
        have := h3 rfl
        rw [headNotSpace] at this
        rw [this] at hd
        cases hd
      | false =>
        have hd' : d = ' ' := h1 d (List.mem_cons_self d rest) hd
        simp only [collapseWsAux, hd, if_pos]
        have hrest : collapseWsAux true rest = rest := by
          refine ih true (fun c hc => h1 c (List.mem_cons_of_mem d hc)) ?_ ?_
          · exact (List.chain'_cons'.mp h2).2
          · intro _
            cases rest with
            | nil => trivial
            | cons e es =>
              have := (List.chain'_cons'.mp h2).1 e (by simp)
              rw [headNotSpace]
              by_cases he : pyIsSpace e = true
              · exact absurd ⟨hd, he⟩ this
              · simpa using he
        rw [hrest, hd']
    · simp only [Bool.not_eq_true] at hd
      simp only [collapseWsAux, hd]
      rw [if_neg (by simp)]
      rw [ih false (fun c hc => h1 c (List.mem_cons_of_mem d hc))
        (List.Chain'.tail h2) (by intro h; cases h)]

theorem mem_stripWs {c : Char} {l : List Char} (h : c ∈ stripWs l) : c ∈ l := by
  unfold stripWs stripEnd at h
  rw [List.mem_reverse] at h
  have h1 := (List.dropWhile_sublist pyIsSpace).mem h
  rw [List.mem_reverse] at h1
  exact (List.dropWhile_sublist pyIsSpace).mem h1

theorem headNotSpace_dropWhile (l : List Char) :
    headNotSpace (l.dropWhile pyIsSpace) := by
  induction l with
  | nil => trivial
  | cons d rest ih =>
    by_cases hd : pyIsSpace d = true
    · simpa [List.dropWhile, hd] using ih
    · simp only [Bool.not_eq_true] at hd
      simp only [List.dropWhile, hd]
      exact hd

theorem headNotSpace_of_isPre {l l' : List Char} (h : l' <+: l)
    (hl : headNotSpace l) : headNotSpace l' := by
  cases l' with
  | nil => trivial
  | cons c cs =>
    obtain ⟨t, ht⟩ := h
    cases l with
    | nil => cases ht
    | cons d ds =>
      have : c = d := by
        have := congrArg (List.head? ·) ht
        simpa using this
      subst this
      exact hl

theorem stripEnd_isPre (l : List Char) : stripEnd l <+: l := by
  unfold stripEnd
  have h := List.dropWhile_suffix (l := l.reverse) pyIsSpace
  rw [← List.reverse_prefix] at h
  simpa using h

theorem headNotSpace_stripWs (l : List Char) : headNotSpace (stripWs l) := by
  unfold stripWs
  exact headNotSpace_of_isPre (stripEnd_isPre _) (headNotSpace_dropWhile l)

theorem lastNotSpace_stripWs (l : List Char) : lastNotSpace (stripWs l) := by
  unfold stripWs stripEnd lastNotSpace
  rw [List.reverse_reverse]
  exact headNotSpace_dropWhile _

theorem noAdjSpace_stripWs {l : List Char} (h : NoAdjSpace l) :
    NoAdjSpace (stripWs l) := by
  unfold stripWs
  have h1 : NoAdjSpace (l.dropWhile pyIsSpace) :=
    h.suffix (List.dropWhile_suffix pyIsSpace)
  exact h1.prefix (stripEnd_isPre _)

theorem dropWhile_eq_self_of_headNotSpace {l : List Char} (h : headNotSpace l) :
    l.dropWhile pyIsSpace = l := by
  cases l with
  | nil => rfl
  | cons c cs =>
    rw [headNotSpace] at h
    simp [List.dropWhile, h]

theorem stripWs_eq_self {l : List Char} (h1 : headNotSpace l) (h2 : lastNotSpace l) :
    stripWs l = l := by
  unfold stripWs stripEnd
  rw [dropWhile_eq_self_of_headNotSpace h1,
    dropWhile_eq_self_of_headNotSpace h2, List.reverse_reverse]

/-! ### Characterisation of normalized text -/

theorem mem_normalize {c : Char} {l : List Char} (h : c ∈ normalize l) :
    pyLower c = c ∧ isPyDash c = false ∧ (pyIsSpace c = true → c = ' ') := by
  unfold normalize at h
  have h1 := mem_stripWs h
  rcases mem_collapseWsAux false _ h1 with h2 | ⟨h2, h3⟩
  · subst h2
    exact ⟨by decide, by decide, fun _ => rfl⟩
  · rw [List.mem_map] at h2
    obtain ⟨d, hd1, hd2⟩ := h2
    rw [List.mem_map] at hd1
    obtain ⟨x, _, hx⟩ := hd1
    subst hx
    subst hd2
    refine ⟨pyLower_dashFix_pyLower x, isPyDash_dashFix _, fun hsp => ?_⟩
    rw [h3] at hsp
    cases hsp

theorem headNotSpace_normalize (l : List Char) : headNotSpace (normalize l) :=
  headNotSpace_stripWs _

theorem lastNotSpace_normalize (l : List Char) : lastNotSpace (normalize l) :=
  lastNotSpace_stripWs _

theorem noAdjSpace_normalize (l : List Char) : NoAdjSpace (normalize l) :=
  noAdjSpace_stripWs (noAdjSpace_collapseWsAux false _)

theorem map_eq_self_of_fixed {f : Char → Char} {l : List Char}
    (h : ∀ c ∈ l, f c = c) : l.map f = l := by
  induction l with
  | nil => rfl
  | cons c cs ih =>
    simp only [List.map_cons, h c (List.mem_cons_self c cs),
      ih (fun x hx => h x (List.mem_cons_of_mem c hx))]

/-- Claim C8 core fact: one pass of normalize leaves an already-normalized
string unchanged. -/
theorem normalize_of_normalized (l : List Char) :
    normalize (normalize l) = normalize l := by
  have hchars := fun c hc => mem_normalize (l := l) (c := c) hc
  conv_lhs => rw [normalize]
  rw [map_eq_self_of_fixed (fun c hc => (hchars c hc).1)]
  rw [map_eq_self_of_fixed (f := dashFix) (fun c hc => by
    rw [dashFix, (hchars c hc).2.1]; simp)]
  rw [collapseWs, collapseWsAux_eq_self false _
    (fun c hc hsp => (hchars c hc).2.2 hsp)
    (noAdjSpace_normalize l) (by intro h; cases h)]
  exact stripWs_eq_self (headNotSpace_normalize l) (lastNotSpace_normalize l)

/-! ## expand_variants (`_normalize.py`) -/

/-- The `_GREEK` symbol/name table of `_normalize.py`. -/
def GREEK : List (Char × List Char) :=
  [('α', ['a','l','p','h','a']), ('β', ['b','e','t','a']),
   ('γ', ['g','a','m','m','a']), ('δ', ['d','e','l','t','a']),
   ('ε', ['e','p','s','i','l','o','n']), ('ζ', ['z','e','t','a']),
   ('η', ['e','t','a']), ('θ', ['t','h','e','t','a']),
   ('κ', ['k','a','p','p','a']), ('λ', ['l','a','m','b','d','a']),
   ('μ', ['m','u']), ('ν', ['n','u']), ('ξ', ['x','i']), ('π', ['p','i']),
   ('ρ', ['r','h','o']), ('σ', ['s','i','g','m','a']), ('τ', ['t','a','u']),
   ('φ', ['p','h','i']), ('χ', ['c','h','i']), ('ψ', ['p','s','i']),
   ('ω', ['o','m','e','g','a'])]

/-- Python `sub in s` for strings. -/
def containsSub (s pat : List Char) : Bool :=
  (List.range (s.length + 1)).any (fun i => pat.isPrefixOf (s.drop i))

/-- Python `s.replace(pat, rep)` (all non-overlapping occurrences, left to
right).  `pat` is nonempty at every call site; the fuel equals the length
of `s`, enough since every step consumes at least one character. -/
def replaceAllAux (pat rep : List Char) : Nat → List Char → List Char
  | 0, s => s
  | fuel + 1, s =>
    if pat ≠ [] ∧ pat.isPrefixOf s then rep ++ replaceAllAux pat rep fuel (s.drop pat.length)
    else
      match s with
      | [] => []
      | c :: rest => c :: replaceAllAux pat rep fuel rest

def replaceAll (s pat rep : List Char) : List Char := replaceAllAux pat rep s.length s

/-- The `re.sub(r"([a-zA-Z])(\d)", r"\1-\2", term)` step: insert a hyphen
at each ASCII-letter→digit boundary, scanning left to right and consuming
both characters of a replaced pair. -/
def dehyphenate : List Char → List Char
  | c1 :: c2 :: rest =>
    if isAsciiLetter c1 && isAsciiDigit c2 then c1 :: '-' :: c2 :: dehyphenate rest
    else c1 :: dehyphenate (c2 :: rest)
  | l => l

/-- `expand_variants` from `_normalize.py`.  The Python function returns a
set; iteration order of that set is irrelevant to the matcher (every
variant of one term maps to the same value, and the lookup tables are
only queried by key), so the model returns the generation-order list. -/
def expandVariants (term : List Char) : List (List Char) :=
  let lower := term.map pyLower
  let base := [term, lower]
  let greek := GREEK.flatMap (fun sn =>
    (if containsSub lower [sn.1] then [replaceAll lower [sn.1] sn.2] else []) ++
    (if containsSub lower sn.2 then [replaceAll lower sn.2 [sn.1]] else []))
  let hyph := if containsSub term ['-'] then
      [replaceAll term ['-'] [], replaceAll lower ['-'] []] else []
  let dehyph := dehyphenate term
  let dehyphPart := if dehyph ≠ term then [dehyph, dehyph.map pyLower] else []
  let period := if containsSub term ['.', ' '] then
      [replaceAll term ['.', ' '] [' '], replaceAll lower ['.', ' '] [' ']] else []
  let all := base ++ greek ++ hyph ++ dehyphPart ++ period
  all.map normalize ++ all

/-! ## Matcher state (`GazetteerMatcher.__init__`) -/

/-- A single entity match found in text (`Match` in `_matcher.py`). -/
structure Match where
  text : List Char
  entity_type : String
  char_start : Nat
  char_end : Nat
  canonical : List Char
  match_method : String
deriving DecidableEq, Repr

/-- Python-dict insertion: overwrite the value in place if the key exists
(keeping its original position), append otherwise. -/
def dictInsert (k : List Char) (v : List Char × String) :
    List (List Char × (List Char × String)) → List (List Char × (List Char × String))
  | [] => [(k, v)]
  | e :: rest => if e.1 = k then (k, v) :: rest else e :: dictInsert k v rest

/-- Python-dict lookup (keys are unique, the first match is the value). -/
def lookupA (m : List (List Char × (List Char × String))) (k : List Char) :
    Option (List Char × String) :=
  (m.find? (fun e => e.1 = k)).map (fun e => e.2)

/-- The lookup structures built by `GazetteerMatcher.__init__`. -/
structure MatcherState where
  caseSensitive : List (List Char × (List Char × String))
  normMap : List (List Char × (List Char × String))
  maxTermLen : Nat
  fuzzyTerms : List (List Char × String)
deriving Repr

def MatcherState.empty : MatcherState := ⟨[], [], 0, []⟩

/-- The body of the `for variant in expand_variants(term)` loop of
`GazetteerMatcher.__init__`: insert into the normalized lookup only when
the normalized variant is truthy and not already present, and track the
maximum normalized length. -/
def variantStep (term : List Char) (entity_type : String) (s : MatcherState)
    (v : List Char) : MatcherState :=
  let n := normalize v
  let s' := if n ≠ [] ∧ (lookupA s.normMap n).isNone then
      { s with normMap := s.normMap ++ [(n, (term, entity_type))] }
    else s
  { s' with maxTermLen := max s'.maxTermLen n.length }

/-- The body of the inner `for term in terms` loop of
`GazetteerMatcher.__init__`. -/
def insertTerm (st : MatcherState) (entity_type : String) (term : List Char) :
    MatcherState :=
  let st1 := { st with caseSensitive := dictInsert term (term, entity_type) st.caseSensitive }
  let st2 := (expandVariants term).foldl (variantStep term entity_type) st1
  { st2 with fuzzyTerms := st2.fuzzyTerms ++ [(term, entity_type)] }

/-- `GazetteerMatcher.__init__`: fold over the gazetteer mapping
(an insertion-ordered association list, as a Python dict). -/
def buildMatcher (gaz : List (String × List (List Char))) : MatcherState :=
  gaz.foldl (fun st e => e.2.foldl (fun s t => insertTerm s e.1 t) st) MatcherState.empty

/-! ## Span bookkeeping (`occupied`, `_overlaps`, `_is_word_boundary`) -/

/-- Python `range(s, e)` as a list. -/
def spanList (s e : Nat) : List Nat := List.range' s (e - s)

/-- `GazetteerMatcher._overlaps`. -/
def overlaps (occupied : List Nat) (s e : Nat) : Bool :=
  (spanList s e).any (fun i => occupied.contains i)

/-- `GazetteerMatcher._is_word_boundary`. -/
def isWordBoundary (text : List Char) (s e : Nat) : Bool :=
  if 0 < s && pyIsAlnum (text.getD (s - 1) ' ') then false
  else !(decide (e < text.length) && pyIsAlnum (text.getD e ' '))

/-- Position `i` lies inside the half-open span of `m`. -/
def inSpan (m : Match) (i : Nat) : Prop := m.char_start ≤ i ∧ i < m.char_end

/-- The half-open intervals of two matches have empty intersection. -/
def spansDisjoint (m1 m2 : Match) : Prop := ∀ i, ¬(inSpan m1 i ∧ inSpan m2 i)

/-- The accept-or-skip loop shared by all match phases: a candidate is
accepted iff it does not overlap the positions already occupied, and on
acceptance its positions are occupied.  Candidate generation in every
phase of `_matcher.py` is independent of `occupied`, so each phase is
this fold over its phase-specific candidate list. -/
def claimAll : List Match → List Nat → List Match × List Nat
  | [], occ => ([], occ)
  | m :: rest, occ =>
    if overlaps occ m.char_start m.char_end then claimAll rest occ
    else
      let res := claimAll rest (occ ++ spanList m.char_start m.char_end)
      (m :: res.1, res.2)

/-! ## Phase 1 (`GazetteerMatcher._exact_match`) -/

/-- Python `text[s:e]` (for `0 ≤ s ≤ e`). -/
def slice (text : List Char) (s e : Nat) : List Char := (text.drop s).take (e - s)

/-- All start offsets of occurrences of `needle` in `hay`, in increasing
order: exactly the indices produced by the `while True: idx = text.find(term,
start); start = idx + 1` loop of the case-sensitive pass (Python `str.find`
reports the smallest occurrence index at least `start`, and an empty needle
occurs at every offset `0..len`). -/
def csPositions (hay needle : List Char) : List Nat :=
  (List.range (hay.length + 1)).filter (fun i => needle.isPrefixOf (hay.drop i))

/-- Candidates of the case-sensitive pass of `_exact_match`, in scan order;
the boundary test is occupancy-independent and applied here, the occupancy
test happens in `claimAll`. -/
def csCandidates (caseSensitive : List (List Char × (List Char × String)))
    (text : List Char) : List Match :=
  caseSensitive.flatMap (fun e =>
    (csPositions text e.1).filterMap (fun idx =>
      let endIdx := idx + e.1.length
      if isWordBoundary text idx endIdx then
        some { text := slice text idx endIdx, entity_type := e.2.2, char_start := idx,
               char_end := endIdx, canonical := e.2.1, match_method := "exact" }
      else none))

/-- The inner `while orig_idx < len(original)` scan of
`_build_position_map`: smallest index `j ≥ i` whose lower-cased original
character equals the normalized character. -/
def findLowerFrom (original : List Char) (i : Nat) (nc : Char) : Option Nat :=
  (List.range original.length).find?
    (fun j => decide (i ≤ j) && decide (pyLower (original.getD j ' ') = nc))

/-- `_build_position_map` from `_matcher.py`.  On scan failure `orig_idx`
has been advanced to `len(original)` and the fallback entry is
`max(0, len - 1)` (which is `len - 1` in truncated subtraction). -/
def buildPositionMapAux (original : List Char) : Nat → List Char → List Nat
  | _, [] => []
  | origIdx, nc :: rest =>
    match findLowerFrom original origIdx nc with
    | some j => j :: buildPositionMapAux original (j + 1) rest
    | none => (original.length - 1) :: buildPositionMapAux original original.length rest

def buildPositionMap (original normalized : List Char) : List Nat :=
  buildPositionMapAux original 0 normalized

/-- Candidates of the normalized sliding-window pass of `_exact_match`, in
scan order: window lengths from the longest known normalized term down to
1, window start positions left to right. -/
def normCandidates (normMap : List (List Char × (List Char × String)))
    (maxTermLen : Nat) (text : List Char) : List Match :=
  let textNorm := normalize text
  let posMap := buildPositionMap text textNorm
  ((List.range' 1 maxTermLen).reverse).flatMap (fun w =>
    (List.range (textNorm.length + 1 - w)).filterMap (fun i =>
      let fragment := slice textNorm i (i + w)
      match lookupA normMap fragment with
      | none => none
      | some cv =>
        let origStart := posMap.getD i 0
        let origEnd := posMap.getD (min (i + w) textNorm.length - 1) 0 + 1
        if isWordBoundary text origStart origEnd then
          some { text := slice text origStart origEnd, entity_type := cv.2,
                 char_start := origStart, char_end := origEnd,
                 canonical := cv.1, match_method := "exact" }
        else none))

/-- `GazetteerMatcher._exact_match`: case-sensitive pass, then normalized
sliding-window pass, both feeding the shared occupied set. -/
def exactPhase (st : MatcherState) (text : List Char) (occ : List Nat) :
    List Match × List Nat :=
  claimAll (csCandidates st.caseSensitive text ++
    normCandidates st.normMap st.maxTermLen text) occ

/-! ## Phase 1b (`GazetteerMatcher._regex_match`) and the derived accession
patterns (`_ACCESSION_PATTERNS` in `_loader.py`)

The matcher is only ever constructed with patterns produced by
`derive_accession_patterns`, i.e. with the five word-boundary-anchored
regex families of `_ACCESSION_PATTERNS`; the embedding fixes the pattern
type to those five families and gives each its matching semantics
directly (Python `re`, with `\d` and the explicit classes modelled on
ASCII and `\w` as `pyIsWordChar`). -/

inductive AccPat
  | rvLocus   -- \bRv\d{4}[c]?\b
  | mycoMT    -- \bMT\w+\b
  | uniProt   -- \b[OPQ][0-9][A-Z0-9]{3}[0-9]\b
  | pdbCode   -- \b[0-9][A-Z0-9]{3}\b
  | refseqWP  -- \bWP_\d+\b
deriving DecidableEq, Repr

/-- [A-Z0-9] -/
def isUpperDigit (c : Char) : Bool := ('A' ≤ c && c ≤ 'Z') || isAsciiDigit c

/-- Length of the maximal run of characters satisfying `P` starting at `i`. -/
def runLen (P : Char → Bool) (text : List Char) (i : Nat) : Nat :=
  ((text.drop i).takeWhile P).length

/-- A `\b` assertion in front of a word character at position `p`. -/
def leadingBoundary (text : List Char) (p : Nat) : Bool :=
  decide (p = 0) || !pyIsWordChar (text.getD (p - 1) ' ')

/-- A `\b` assertion just after a word character, before position `q`. -/
def trailingBoundary (text : List Char) (q : Nat) : Bool :=
  decide (text.length ≤ q) || !pyIsWordChar (text.getD q ' ')

/-- Attempt to match one accession pattern at position `p`; returns the end
offset on success.  Out-of-range reads yield the default `' '`, which fails
every character class, so the bounds checks of the regex engine are
implicit.  For `Rv\d{4}[c]?\b` the greedy optional `c` backtracks: with a
`c` present but no boundary after it, the boundary before the `c` fails
too (`c` is a word character), which the second branch reproduces.  For
the greedy `\w+`/`\d+` tails a maximal run is taken; after a maximal
`\w+` run the trailing `\b` always holds, and after a maximal `\d+` run
backtracking cannot recover a failed trailing `\b` (every shorter run ends
digit-before-digit), so a single check after the maximal run is exact. -/
def matchAtAcc (pat : AccPat) (text : List Char) (p : Nat) : Option Nat :=
  if !leadingBoundary text p then none else
  match pat with
  | .rvLocus =>
    if text.getD p ' ' = 'R' && text.getD (p+1) ' ' = 'v'
        && isAsciiDigit (text.getD (p+2) ' ') && isAsciiDigit (text.getD (p+3) ' ')
        && isAsciiDigit (text.getD (p+4) ' ') && isAsciiDigit (text.getD (p+5) ' ') then
      if text.getD (p+6) ' ' = 'c' && trailingBoundary text (p+7) then some (p+7)
      else if trailingBoundary text (p+6) then some (p+6)
      else none
    else none
  | .mycoMT =>
    if text.getD p ' ' = 'M' && text.getD (p+1) ' ' = 'T'
        && pyIsWordChar (text.getD (p+2) ' ') then
      some (p + 2 + runLen pyIsWordChar text (p+2))
    else none
  | .uniProt =>
    if (text.getD p ' ' = 'O' || text.getD p ' ' = 'P' || text.getD p ' ' = 'Q')
        && isAsciiDigit (text.getD (p+1) ' ')
        && isUpperDigit (text.getD (p+2) ' ') && isUpperDigit (text.getD (p+3) ' ')
        && isUpperDigit (text.getD (p+4) ' ') && isAsciiDigit (text.getD (p+5) ' ')
        && trailingBoundary text (p+6) then some (p+6) else none
  | .pdbCode =>
    if isAsciiDigit (text.getD p ' ') && isUpperDigit (text.getD (p+1) ' ')
        && isUpperDigit (text.getD (p+2) ' ') && isUpperDigit (text.getD (p+3) ' ')
        && trailingBoundary text (p+4) then some (p+4) else none
  | .refseqWP =>
    if text.getD p ' ' = 'W' && text.getD (p+1) ' ' = 'P' && text.getD (p+2) ' ' = '_'
        && isAsciiDigit (text.getD (p+3) ' ') then
      if trailingBoundary text (p + 3 + runLen isAsciiDigit text (p+3)) then
        some (p + 3 + runLen isAsciiDigit text (p+3))
      else none
    else none

/-- Python `pattern.finditer(text)`: scan left to right, yield each
leftmost match, resume at its end (every pattern matches at least two
characters, so `text.length + 2` fuel covers the whole scan). -/
def finditerFrom (pat : AccPat) (text : List Char) : Nat → Nat → List (Nat × Nat)
  | _, 0 => []
  | p, fuel + 1 =>
    if text.length < p then []
    else
      match matchAtAcc pat text p with
      | some e => (p, e) :: finditerFrom pat text e fuel
      | none => finditerFrom pat text (p + 1) fuel

def finditerAcc (pat : AccPat) (text : List Char) : List (Nat × Nat) :=
  finditerFrom pat text 0 (text.length + 2)

/-- Candidates of `GazetteerMatcher._regex_match`, in scan order. -/
def regexCandidates (pats : List (AccPat × String)) (text : List Char) : List Match :=
  pats.flatMap (fun pe =>
    (finditerAcc pe.1 text).map (fun se =>
      { text := slice text se.1 se.2, entity_type := "accession_number",
        char_start := se.1, char_end := se.2, canonical := slice text se.1 se.2,
        match_method := "regex" }))

def regexPhase (pats : List (AccPat × String)) (text : List Char) (occ : List Nat) :
    List Match × List Nat :=
  claimAll (regexCandidates pats text) occ

/-! ## Phase 2 (`GazetteerMatcher._fuzzy_match`) -/

/-- The [\w\-\.] class of `_TOKEN_RE`. -/
def wDotClass (c : Char) : Bool := pyIsWordChar c || c = '-' || c = '.'

/-- Index of the last ASCII-alphanumeric character of `seg`, if any. -/
def lastAlnumIdx (seg : List Char) : Option Nat :=
  match seg.reverse.findIdx? isAsciiAlnum with
  | some k => some (seg.length - 1 - k)
  | none => none

/-- End offset of the `_TOKEN_RE` match starting at an ASCII-alphanumeric
position `p`: the first alternative takes the greedy [\w\-\.]* run and
backtracks until its final [A-Za-z0-9] matches, i.e. it ends after the
last ASCII-alphanumeric character inside the run; if the run contains
none, the second single-character alternative applies. -/
def tokenEndAt (text : List Char) (p : Nat) : Nat :=
  let seg := (text.drop (p+1)).takeWhile wDotClass
  match lastAlnumIdx seg with
  | some j => p + 1 + j + 1
  | none => p + 1

/-- `_TOKEN_RE.finditer(text)`: the candidate token spans, left to right. -/
def tokensFrom (text : List Char) : Nat → Nat → List (Nat × Nat)
  | _, 0 => []
  | p, fuel + 1 =>
    if text.length ≤ p then []
    else if isAsciiAlnum (text.getD p ' ') then
      (p, tokenEndAt text p) :: tokensFrom text (tokenEndAt text p) fuel
    else tokensFrom text (p + 1) fuel

def tokenize (text : List Char) : List (Nat × Nat) := tokensFrom text 0 (text.length + 2)

/-- `GazetteerMatcher._is_entity_like`. -/
def isEntityLike (token : List Char) : Bool :=
  if token.length < 3 then false
  else (token.any pyIsUpper) || (token.any isAsciiDigit) || decide (4 ≤ token.length)

/-- Longest-common-subsequence length (row dynamic programming). -/
def lcsRowStep (c : Char) : List Char → List Nat → Nat → Nat → List Nat
  | [], _, _, _ => []
  | bc :: bs, prev, diag, left =>
    match prev with
    | [] => []
    | pHead :: pTail =>
      let v := if c = bc then diag + 1 else max left pHead
      v :: lcsRowStep c bs pTail pHead v

def lcsNextRow (c : Char) (b : List Char) (row : List Nat) : List Nat :=
  match row with
  | [] => []
  | r0 :: rest => 0 :: lcsRowStep c b rest r0 0

def lcsLen (a b : List Char) : Nat :=
  (a.foldl (fun row c => lcsNextRow c b row) (List.replicate (b.length + 1) 0)).getLast?.getD 0

/-- `rapidfuzz.fuzz.ratio`: the normalized InDel similarity on the 0–100
scale, as the exact rational `100·2·lcs/(|a|+|b|)` represented by a
numerator/denominator pair (the InDel distance is `|a|+|b| - 2·lcs`).
Both strings empty scores 100. -/
def fuzzScore (a b : List Char) : Nat × Nat :=
  let tot := a.length + b.length
  if tot = 0 then (100, 1) else (100 * (2 * lcsLen a b), tot)

/-- Strict comparison of two scores (`score > best_score`). -/
def scoreLt (s1 s2 : Nat × Nat) : Bool := decide (s1.1 * s2.2 < s2.1 * s1.2)

/-- `best_score >= self._fuzzy_threshold` (threshold is a Python int). -/
def scoreGeInt (s : Nat × Nat) (t : Int) : Bool := decide (t * (s.2 : Int) ≤ (s.1 : Int))

/-- Running best of the candidate-comparison loop of `_fuzzy_match`. -/
structure FuzzyBest where
  score : Nat × Nat
  canonical : List Char
  entity_type : String
deriving Repr

/-- One step of the `for canonical, entity_type in self._fuzzy_terms`
loop: length pre-filter (`0.7 ≤ len(token)/max(len(canonical),1) ≤ 1.4`,
compared exactly by cross-multiplication), then case-insensitive scoring,
keeping the first best-scoring candidate. -/
def fuzzyStep (token : List Char) (best : FuzzyBest) (ce : List Char × String) :
    FuzzyBest :=
  let m := max ce.1.length 1
  if decide (10 * token.length < 7 * m) || decide (14 * m < 10 * token.length) then best
  else
    let s := fuzzScore (token.map pyLower) (ce.1.map pyLower)
    if scoreLt best.score s then ⟨s, ce.1, ce.2⟩ else best

def fuzzyScan (fuzzyTerms : List (List Char × String)) (token : List Char) : FuzzyBest :=
  fuzzyTerms.foldl (fuzzyStep token) ⟨(0, 1), [], ""⟩

/-- Candidates of `GazetteerMatcher._fuzzy_match`, in token order. -/
def fuzzyCandidates (fuzzyTerms : List (List Char × String)) (thr : Int)
    (text : List Char) : List Match :=
  (tokenize text).filterMap (fun se =>
    let token := slice text se.1 se.2
    if !isEntityLike token then none
    else
      let best := fuzzyScan fuzzyTerms token
      if scoreGeInt best.score thr then
        some { text := token, entity_type := best.entity_type, char_start := se.1,
               char_end := se.2, canonical := best.canonical, match_method := "fuzzy" }
      else none)

def fuzzyPhase (fuzzyTerms : List (List Char × String)) (thr : Int)
    (text : List Char) (occ : List Nat) : List Match × List Nat :=
  claimAll (fuzzyCandidates fuzzyTerms thr text) occ

/-! ## `GazetteerMatcher.match` -/

/-- The sort key `(char_start, -char_end)`: start ascending, end
descending as tie-break. -/
def matchLe (a b : Match) : Prop :=
  a.char_start < b.char_start ∨ (a.char_start = b.char_start ∧ b.char_end ≤ a.char_end)

instance : DecidableRel matchLe := fun a b => by
  unfold matchLe
  exact inferInstance

/-- `GazetteerMatcher.match`: exact phase, regex phase, fuzzy phase (the
last only when the threshold is positive) feeding one occupied set, then
a stable sort by `(char_start, -char_end)`. -/
def gazMatch (gaz : List (String × List (List Char))) (pats : List (AccPat × String))
    (fuzzy_threshold : Int) (text : List Char) : List Match :=
  let st := buildMatcher gaz
  let er := exactPhase st text []
  let rr := regexPhase pats text er.2
  let fr := if 0 < fuzzy_threshold then fuzzyPhase st.fuzzyTerms fuzzy_threshold text rr.2
    else ([], rr.2)
  List.insertionSort matchLe (er.1 ++ rr.1 ++ fr.1)

/-! ## Invariants of the accept-or-skip loop -/

theorem inSpan_iff_mem_spanList (m : Match) (i : Nat) :
    inSpan m i ↔ i ∈ spanList m.char_start m.char_end := by
  rw [inSpan, spanList, List.mem_range'_1]
  omega

theorem overlaps_eq_false {occ : List Nat} {s e : Nat}
    (h : overlaps occ s e = false) : ∀ i ∈ spanList s e, i ∉ occ := by
  intro i hi hmem
  rw [overlaps, List.any_eq_false] at h
  have := h i hi
  exact absurd hmem (by simpa using this)

theorem claimAll_subset {l : List Match} {occ : List Nat} :
    ∀ m ∈ (claimAll l occ).1, m ∈ l := by
  induction l generalizing occ with
  | nil => intro m h; cases h
  | cons c rest ih =>
    intro m h
    by_cases hov : overlaps occ c.char_start c.char_end = true
    · rw [claimAll, if_pos hov] at h
      exact List.mem_cons_of_mem c (ih m h)
    · rw [Bool.not_eq_true] at hov
      rw [claimAll, if_neg (by rw [hov]; simp)] at h
      rcases List.mem_cons.mp h with h1 | h1
      · exact h1 ▸ List.mem_cons_self c rest
      · exact List.mem_cons_of_mem c (ih m h1)

theorem claimAll_occ_mono {l : List Match} {occ : List Nat} :
    ∀ i ∈ occ, i ∈ (claimAll l occ).2 := by
  induction l generalizing occ with
  | nil => intro i h; exact h
  | cons c rest ih =>
    intro i h
    by_cases hov : overlaps occ c.char_start c.char_end = true
    · rw [claimAll, if_pos hov]
      exact ih i h
    · rw [Bool.not_eq_true] at hov
      rw [claimAll, if_neg (by rw [hov]; simp)]
      exact ih i (List.mem_append_left _ h)

theorem claimAll_claimed {l : List Match} {occ : List Nat} :
    ∀ m ∈ (claimAll l occ).1, ∀ i, inSpan m i → i ∈ (claimAll l occ).2 := by
  induction l generalizing occ with
  | nil => intro m h; cases h
  | cons c rest ih =>
    intro m h i hi
    by_cases hov : overlaps occ c.char_start c.char_end = true
    · rw [claimAll, if_pos hov] at h ⊢
      exact ih m h i hi
    · rw [Bool.not_eq_true] at hov
      rw [claimAll, if_neg (by rw [hov]; simp)] at h ⊢
      rcases List.mem_cons.mp h with h1 | h1
      · subst h1
        refine claimAll_occ_mono i (List.mem_append_right _ ?_)
        exact (inSpan_iff_mem_spanList m i).mp hi
      · exact ih m h1 i hi

theorem claimAll_avoid {l : List Match} {occ : List Nat} :
    ∀ m ∈ (claimAll l occ).1, ∀ i, inSpan m i → i ∉ occ := by
  induction l generalizing occ with
  | nil => intro m h; cases h
  | cons c rest ih =>
    intro m h i hi
    by_cases hov : overlaps occ c.char_start c.char_end = true
    · rw [claimAll, if_pos hov] at h
      exact ih m h i hi
    · rw [Bool.not_eq_true] at hov
      rw [claimAll, if_neg (by rw [hov]; simp)] at h
      rcases List.mem_cons.mp h with h1 | h1
      · subst h1
        exact overlaps_eq_false hov i ((inSpan_iff_mem_spanList m i).mp hi)
      · intro hocc
        exact ih m h1 i hi (List.mem_append_left _ hocc)

theorem claimAll_pairwise (l : List Match) (occ : List Nat) :
    List.Pairwise spansDisjoint (claimAll l occ).1 := by
  induction l generalizing occ with
  | nil => exact List.Pairwise.nil
  | cons c rest ih =>
    by_cases hov : overlaps occ c.char_start c.char_end = true
    · rw [claimAll, if_pos hov]
      exact ih occ
    · rw [Bool.not_eq_true] at hov
      rw [claimAll, if_neg (by rw [hov]; simp)]
      refine List.Pairwise.cons ?_ (ih _)
      intro m hm i ⟨hic, him⟩
      have h1 := claimAll_avoid m hm i him
      exact h1 (List.mem_append_right _ ((inSpan_iff_mem_spanList c i).mp hic))

theorem spansDisjoint_symm : Symmetric spansDisjoint :=
  fun _ _ h i hi => h i ⟨hi.2, hi.1⟩

/-- The raw (pre-sort) match list of `GazetteerMatcher.match`. -/
def gazMatchRaw (gaz : List (String × List (List Char))) (pats : List (AccPat × String))
    (fuzzy_threshold : Int) (text : List Char) : List Match :=
  let st := buildMatcher gaz
  let er := exactPhase st text []
  let rr := regexPhase pats text er.2
  let fr := if 0 < fuzzy_threshold then fuzzyPhase st.fuzzyTerms fuzzy_threshold text rr.2
    else ([], rr.2)
  er.1 ++ rr.1 ++ fr.1

theorem gazMatch_eq_sort_raw (gaz : List (String × List (List Char)))
    (pats : List (AccPat × String)) (thr : Int) (text : List Char) :
    gazMatch gaz pats thr text = List.insertionSort matchLe (gazMatchRaw gaz pats thr text) := rfl

theorem gazMatchRaw_pairwise (gaz : List (String × List (List Char)))
    (pats : List (AccPat × String)) (thr : Int) (text : List Char) :
    List.Pairwise spansDisjoint (gazMatchRaw gaz pats thr text) := by
  rw [gazMatchRaw]
  set st := buildMatcher gaz with hst
  set er := exactPhase st text [] with her
  set rr := regexPhase pats text er.2 with hrr
  set fr := (if 0 < thr then fuzzyPhase st.fuzzyTerms thr text rr.2 else ([], rr.2)) with hfr
  have hpe : List.Pairwise spansDisjoint er.1 := claimAll_pairwise _ _
  have hpr : List.Pairwise spansDisjoint rr.1 := claimAll_pairwise _ _
  have hpf : List.Pairwise spansDisjoint fr.1 := by
    rw [hfr]
    by_cases h : 0 < thr
    · rw [if_pos h]; exact claimAll_pairwise _ _
    · rw [if_neg h]; exact List.Pairwise.nil
  -- spans of accepted matches are recorded in the occupied set handed on
  have her2 : ∀ m ∈ er.1, ∀ i, inSpan m i → i ∈ er.2 := claimAll_claimed
  have hrr2 : ∀ m ∈ rr.1, ∀ i, inSpan m i → i ∈ rr.2 := claimAll_claimed
  have herrr2 : ∀ i ∈ er.2, i ∈ rr.2 := claimAll_occ_mono
  have hravoid : ∀ m ∈ rr.1, ∀ i, inSpan m i → i ∉ er.2 := claimAll_avoid
  have hfavoid : ∀ m ∈ fr.1, ∀ i, inSpan m i → i ∉ rr.2 := by
    rw [hfr]
    by_cases h : 0 < thr
    · rw [if_pos h]; exact claimAll_avoid
    · rw [if_neg h]; intro m hm; cases hm
  rw [List.pairwise_append]
  refine ⟨?_, hpf, ?_⟩
  · rw [List.pairwise_append]
    refine ⟨hpe, hpr, ?_⟩
    intro m1 h1 m2 h2 i ⟨hi1, hi2⟩
    exact hravoid m2 h2 i hi2 (her2 m1 h1 i hi1)
  · intro m1 h1 m2 h2 i ⟨hi1, hi2⟩
    rcases List.mem_append.mp h1 with h1' | h1'
    · exact hfavoid m2 h2 i hi2 (herrr2 i (her2 m1 h1' i hi1))
    · exact hfavoid m2 h2 i hi2 (hrr2 m1 h1' i hi1)

/-- Claim C1: in the result of a single match() call, the half-open
spans of any two distinct matches have empty intersection. -/
theorem c1_match_nonoverlap (gaz : List (String × List (List Char)))
    (pats : List (AccPat × String)) (thr : Int) (text : List Char) :
    ∀ m1 ∈ gazMatch gaz pats thr text, ∀ m2 ∈ gazMatch gaz pats thr text,
      m1 ≠ m2 → spansDisjoint m1 m2 := by
  intro m1 h1 m2 h2 hne
  have hperm := List.perm_insertionSort matchLe (gazMatchRaw gaz pats thr text)
  have hp : List.Pairwise spansDisjoint (gazMatch gaz pats thr text) := by
    rw [gazMatch_eq_sort_raw]
    exact (List.Perm.pairwise_iff (fun h => spansDisjoint_symm h) hperm).mpr
      (gazMatchRaw_pairwise gaz pats thr text)
  exact List.Pairwise.forall spansDisjoint_symm hp h1 h2 hne

/-- Witness for C1 on a concrete two-match input. -/
theorem c1_match_nonoverlap_witness :
    spansDisjoint ⟨"InhA".data, "t", 0, 4, "InhA".data, "exact"⟩
      ⟨"NADH".data, "t", 11, 15, "NADH".data, "exact"⟩ :=
  c1_match_nonoverlap [("t", ["InhA".data, "NADH".data])] [] 0 "InhA binds NADH".data
    _ (by decide) _ (by decide) (by decide)

/-- Claim C8: normalize is idempotent. -/
theorem c8_normalize_idempotent (x : List Char) : normalize (normalize x) = normalize x :=
  normalize_of_normalized x

/-! ## Word boundaries of accepted matches -/

theorem isWordBoundary_spec {text : List Char} {s e : Nat}
    (h : isWordBoundary text s e = true) :
    (0 < s → pyIsAlnum (text.getD (s - 1) ' ') = false) ∧
    (e < text.length → pyIsAlnum (text.getD e ' ') = false) := by
  unfold isWordBoundary at h
  by_cases h1 : (decide (0 < s) && pyIsAlnum (text.getD (s - 1) ' ')) = true
  · rw [if_pos h1] at h
    cases h
  · rw [if_neg (by simpa using h1)] at h
    rw [Bool.not_eq_true, Bool.and_eq_false_iff] at h1
    constructor
    · intro hs
      rcases h1 with h1 | h1
      · rw [decide_eq_false_iff_not] at h1
        exact absurd hs h1
      · exact h1
    · intro he
      rw [Bool.not_eq_eq_eq_not, Bool.not_true, Bool.and_eq_false_iff] at h
      rcases h with h | h
      · rw [decide_eq_false_iff_not] at h
        exact absurd he h
      · exact h

theorem mem_csCandidates {cs : List (List Char × (List Char × String))}
    {text : List Char} {m : Match} (h : m ∈ csCandidates cs text) :
    m.match_method = "exact" ∧ isWordBoundary text m.char_start m.char_end = true := by
  rw [csCandidates, List.mem_flatMap] at h
  obtain ⟨e, _, hm⟩ := h
  rw [List.mem_filterMap] at hm
  obtain ⟨idx, _, hsome⟩ := hm
  by_cases hb : isWordBoundary text idx (idx + e.1.length) = true
  · rw [if_pos hb] at hsome
    cases hsome
    exact ⟨rfl, hb⟩
  · rw [if_neg hb] at hsome
    cases hsome

theorem mem_normCandidates {nm : List (List Char × (List Char × String))}
    {maxLen : Nat} {text : List Char} {m : Match} (h : m ∈ normCandidates nm maxLen text) :
    m.match_method = "exact" ∧ isWordBoundary text m.char_start m.char_end = true := by
  rw [normCandidates, List.mem_flatMap] at h
  obtain ⟨w, _, hm⟩ := h
  rw [List.mem_filterMap] at hm
  obtain ⟨i, _, hsome⟩ := hm
  simp only at hsome
  split at hsome
  · cases hsome
  · split at hsome
    · rename_i hb
      cases hsome
      exact ⟨rfl, hb⟩
    · cases hsome

theorem finditerFrom_matchAt {pat : AccPat} {text : List Char} :
    ∀ (fuel p : Nat) (se : Nat × Nat), se ∈ finditerFrom pat text p fuel →
      matchAtAcc pat text se.1 = some se.2 := by
  intro fuel
  induction fuel with
  | zero => intro p se h; cases h
  | succ n ih =>
    intro p se h
    rw [finditerFrom] at h
    by_cases hp : text.length < p
    · rw [if_pos hp] at h; cases h
    · rw [if_neg hp] at h
      split at h
      · rename_i e hma
        rcases List.mem_cons.mp h with h1 | h1
        · subst h1; exact hma
        · exact ih _ se h1
      · exact ih _ se h

theorem mem_regexCandidates {pats : List (AccPat × String)} {text : List Char}
    {m : Match} (h : m ∈ regexCandidates pats text) :
    m.match_method = "regex" ∧
      ∃ pat, matchAtAcc pat text m.char_start = some m.char_end := by
  rw [regexCandidates, List.mem_flatMap] at h
  obtain ⟨pe, _, hm⟩ := h
  rw [List.mem_map] at hm
  obtain ⟨se, hse, heq⟩ := hm
  subst heq
  refine ⟨rfl, pe.1, ?_⟩
  exact finditerFrom_matchAt _ _ se hse

theorem mem_fuzzyCandidates_method {ft : List (List Char × String)} {thr : Int}
    {text : List Char} {m : Match} (h : m ∈ fuzzyCandidates ft thr text) :
    m.match_method = "fuzzy" := by
  rw [fuzzyCandidates, List.mem_filterMap] at h
  obtain ⟨se, _, hsome⟩ := h
  simp only at hsome
  by_cases hg : (!isEntityLike (slice text se.1 se.2)) = true
  · rw [if_pos hg] at hsome; cases hsome
  · rw [if_neg hg] at hsome
    by_cases hs : scoreGeInt (fuzzyScan ft (slice text se.1 se.2)).score thr = true
    · rw [if_pos hs] at hsome
      cases hsome
      rfl
    · rw [if_neg hs] at hsome
      cases hsome

theorem pyIsAlnum_of_word_false {c : Char} (h : pyIsWordChar c = false) :
    pyIsAlnum c = false := by
  rw [pyIsWordChar, Bool.or_eq_false_iff] at h
  exact h.1

theorem leadingBoundary_spec {text : List Char} {p : Nat}
    (h : leadingBoundary text p = true) (hp : 0 < p) :
    pyIsAlnum (text.getD (p - 1) ' ') = false := by
  rw [leadingBoundary, Bool.or_eq_true] at h
  rcases h with h | h
  · rw [decide_eq_true_eq] at h
    omega
  · simp only [Bool.not_eq_eq_eq_not, Bool.not_true] at h
    exact pyIsAlnum_of_word_false h

theorem trailingBoundary_spec {text : List Char} {q : Nat}
    (h : trailingBoundary text q = true) (hq : q < text.length) :
    pyIsAlnum (text.getD q ' ') = false := by
  rw [trailingBoundary, Bool.or_eq_true] at h
  rcases h with h | h
  · rw [decide_eq_true_eq] at h
    omega
  · simp only [Bool.not_eq_eq_eq_not, Bool.not_true] at h
    exact pyIsAlnum_of_word_false h

theorem takeWhile_next_false {P : Char → Bool} :
    ∀ l : List Char, (l.takeWhile P).length < l.length →
      P (l.getD (l.takeWhile P).length ' ') = false := by
  intro l
  induction l with
  | nil => intro h; simp at h
  | cons c cs ih =>
    intro h
    by_cases hc : P c = true
    · rw [List.takeWhile_cons_of_pos hc] at h ⊢
      rw [List.length_cons] at h
      rw [List.length_cons, List.getD_cons_succ]
      exact ih (by simpa using h)
    · have hc' : P c = false := by simpa using hc
      rw [List.takeWhile_cons_of_neg (by simp [hc'])] at h ⊢
      rw [List.length_nil, List.getD_cons_zero]
      exact hc'

theorem getD_drop (l : List Char) (n i : Nat) :
    (l.drop n).getD i ' ' = l.getD (n + i) ' ' := by
  rw [List.getD_eq_getElem?_getD, List.getD_eq_getElem?_getD, List.getElem?_drop]

/-- After the maximal run of `P`-characters starting at `i`, the next
character (if inside the text) fails `P`. -/
theorem runLen_next_false {P : Char → Bool} {text : List Char} {i : Nat}
    (h : i + runLen P text i < text.length) :
    P (text.getD (i + runLen P text i) ' ') = false := by
  rw [runLen] at h ⊢
  have hlen : ((text.drop i).takeWhile P).length < (text.drop i).length := by
    rw [List.length_drop]
    omega
  have := takeWhile_next_false (text.drop i) hlen
  rwa [getD_drop] at this

/-- Every span reported by an accession pattern has non-word (hence
non-alphanumeric) characters on both sides. -/
theorem matchAtAcc_boundary {pat : AccPat} {text : List Char} {p e : Nat}
    (h : matchAtAcc pat text p = some e) :
    (0 < p → pyIsAlnum (text.getD (p - 1) ' ') = false) ∧
    (e < text.length → pyIsAlnum (text.getD e ' ') = false) := by
  rw [matchAtAcc.eq_def] at h
  by_cases hlb : (!leadingBoundary text p) = true
  · rw [if_pos hlb] at h; cases h
  · rw [if_neg hlb] at h
    have hlead : leadingBoundary text p = true := by
      rw [Bool.not_eq_true] at hlb
      simpa using hlb
    refine ⟨fun hp => leadingBoundary_spec hlead hp, ?_⟩
    cases pat with
    | rvLocus =>
      simp only at h
      split at h
      · split at h
        · rename_i h2
          cases h
          intro he
          rw [Bool.and_eq_true] at h2
          exact trailingBoundary_spec h2.2 he
        · split at h
          · rename_i h3
            cases h
            intro he
            exact trailingBoundary_spec h3 he
          · cases h
      · cases h
    | mycoMT =>
      simp only at h
      split at h
      · cases h
        intro he
        exact pyIsAlnum_of_word_false (runLen_next_false he)
      · cases h
    | uniProt =>
      simp only at h
      split at h
      · rename_i h2
        cases h
        intro he
        simp only [Bool.and_eq_true] at h2
        exact trailingBoundary_spec h2.2 he
      · cases h
    | pdbCode =>
      simp only at h
      split at h
      · rename_i h2
        cases h
        intro he
        simp only [Bool.and_eq_true] at h2
        exact trailingBoundary_spec h2.2 he
      · cases h
    | refseqWP =>
      simp only at h
      split at h
      · split at h
        · rename_i h3
          cases h
          intro he
          exact trailingBoundary_spec h3 he
        · cases h
      · cases h

/-- Claim C3: every exact or regex match sits on word boundaries — the
character before `char_start` (if any) and the character at `char_end`
(if any) are not alphanumeric; in particular the gazetteer term `Rho`
never matches inside the longer word `Rhodamine`. -/
theorem c3_word_boundary :
    (∀ (gaz : List (String × List (List Char))) (pats : List (AccPat × String))
        (thr : Int) (text : List Char), ∀ m ∈ gazMatch gaz pats thr text,
        m.match_method = "exact" ∨ m.match_method = "regex" →
        (0 < m.char_start → pyIsAlnum (text.getD (m.char_start - 1) ' ') = false) ∧
        (m.char_end < text.length → pyIsAlnum (text.getD m.char_end ' ') = false)) ∧
    gazMatch [("target", ["Rho".data])] [] 85 "Rhodamine staining was performed".data
      = [] := by
  constructor
  · intro gaz pats thr text m hm hmeth
    rw [gazMatch_eq_sort_raw] at hm
    have hraw : m ∈ gazMatchRaw gaz pats thr text :=
      (List.perm_insertionSort matchLe _).mem_iff.mp hm
    rw [gazMatchRaw] at hraw
    rcases List.mem_append.mp hraw with hef | hf
    · rcases List.mem_append.mp hef with he | hr
      · -- exact phase
        have hc := claimAll_subset m he
        rcases List.mem_append.mp hc with h1 | h1
        · exact isWordBoundary_spec (mem_csCandidates h1).2
        · exact isWordBoundary_spec (mem_normCandidates h1).2
      · -- regex phase
        have hc := claimAll_subset m hr
        obtain ⟨_, pat, hma⟩ := mem_regexCandidates hc
        exact matchAtAcc_boundary hma
    · -- fuzzy phase: contradicts the method hypothesis
      exfalso
      by_cases ht : 0 < thr
      · rw [if_pos ht] at hf
        have hc := claimAll_subset m hf
        have := mem_fuzzyCandidates_method hc
        rcases hmeth with h | h <;> rw [this] at h <;> simp at h
      · rw [if_neg ht] at hf
        cases hf
  · decide

/-- Witness for C3 at a concrete regex match. -/
theorem c3_word_boundary_witness :
    (0 < 9 → pyIsAlnum (("The gene Rv1484 encodes InhA".data).getD (9 - 1) ' ') = false) ∧
    (15 < ("The gene Rv1484 encodes InhA".data).length →
      pyIsAlnum (("The gene Rv1484 encodes InhA".data).getD 15 ' ') = false) :=
  c3_word_boundary.1 [("target", ["InhA".data])] [(.rvLocus, "Rv locus tag")] 0
    "The gene Rv1484 encodes InhA".data
    ⟨"Rv1484".data, "accession_number", 9, 15, "Rv1484".data, "regex"⟩
    (by decide) (Or.inr rfl)

/-! ## Phase methods and priority -/

theorem exactPhase_method {st : MatcherState} {text : List Char} {occ : List Nat} :
    ∀ m ∈ (exactPhase st text occ).1, m.match_method = "exact" := by
  intro m hm
  have hc := claimAll_subset m hm
  rcases List.mem_append.mp hc with h | h
  · exact (mem_csCandidates h).1
  · exact (mem_normCandidates h).1

theorem regexPhase_method {pats : List (AccPat × String)} {text : List Char}
    {occ : List Nat} : ∀ m ∈ (regexPhase pats text occ).1, m.match_method = "regex" :=
  fun m hm => (mem_regexCandidates (claimAll_subset m hm)).1

theorem fuzzyPhase_method {ft : List (List Char × String)} {thr : Int}
    {text : List Char} {occ : List Nat} :
    ∀ m ∈ (fuzzyPhase ft thr text occ).1, m.match_method = "fuzzy" :=
  fun m hm => mem_fuzzyCandidates_method (claimAll_subset m hm)

theorem gazMatch_pairwise (gaz : List (String × List (List Char)))
    (pats : List (AccPat × String)) (thr : Int) (text : List Char) :
    List.Pairwise spansDisjoint (gazMatch gaz pats thr text) := by
  rw [gazMatch_eq_sort_raw]
  exact (List.Perm.pairwise_iff (fun h => spansDisjoint_symm h)
    (List.perm_insertionSort matchLe _)).mpr (gazMatchRaw_pairwise gaz pats thr text)

/-- Claim C7: a fuzzy threshold at most 0 disables the fuzzy phase — no
match of a match() call has method "fuzzy"; with threshold 0 the
Scenario E input produces no matches at all. -/
theorem c7_fuzzy_disabled :
    (∀ (gaz : List (String × List (List Char))) (pats : List (AccPat × String))
        (thr : Int) (text : List Char), thr ≤ 0 →
        ∀ m ∈ gazMatch gaz pats thr text, m.match_method ≠ "fuzzy") ∧
    gazMatch [("compound_name", ["Isoniazid".data])] [] 0
      "Isoniazi was administered".data = [] := by
  constructor
  · intro gaz pats thr text hthr m hm
    rw [gazMatch_eq_sort_raw] at hm
    have hraw : m ∈ gazMatchRaw gaz pats thr text :=
      (List.perm_insertionSort matchLe _).mem_iff.mp hm
    rw [gazMatchRaw] at hraw
    rcases List.mem_append.mp hraw with hef | hf
    · rcases List.mem_append.mp hef with he | hr
      · rw [exactPhase_method m he]; simp
      · rw [regexPhase_method m hr]; simp
    · rw [if_neg (by omega)] at hf
      cases hf
  · decide

/-- Witness for C7: with threshold 0 an exact match is still produced and
its method is not "fuzzy". -/
theorem c7_fuzzy_disabled_witness :
    (⟨"NADH".data, "t", 0, 4, "NADH".data, "exact"⟩ : Match).match_method ≠ "fuzzy" :=
  c7_fuzzy_disabled.1 [("t", ["NADH".data])] [] 0 "NADH x".data (by omega)
    _ (by decide)

/-- Claim C4: priority ordering across phases.  The exact matches of the
output are exactly those of the exact phase run first (later phases never
displace them), every fuzzy match is position-disjoint from every exact
and regex match (a fuzzy candidate overlapping an earlier-phase span is
absent), and every regex match is position-disjoint from every exact
match. -/
theorem c4_priority (gaz : List (String × List (List Char)))
    (pats : List (AccPat × String)) (thr : Int) (text : List Char) :
    ((gazMatch gaz pats thr text).filter
        (fun m => m.match_method == "exact")).Perm
      (exactPhase (buildMatcher gaz) text []).1 ∧
    (∀ m1 ∈ gazMatch gaz pats thr text, ∀ m2 ∈ gazMatch gaz pats thr text,
      m1.match_method = "fuzzy" →
      (m2.match_method = "exact" ∨ m2.match_method = "regex") →
      spansDisjoint m1 m2) ∧
    (∀ m1 ∈ gazMatch gaz pats thr text, ∀ m2 ∈ gazMatch gaz pats thr text,
      m1.match_method = "regex" → m2.match_method = "exact" →
      spansDisjoint m1 m2) := by
  refine ⟨?_, ?_, ?_⟩
  · rw [gazMatch_eq_sort_raw]
    refine ((List.perm_insertionSort matchLe _).filter _).trans ?_
    rw [gazMatchRaw]
    rw [List.filter_append, List.filter_append]
    rw [List.filter_eq_self.mpr (fun m hm => by
      rw [exactPhase_method m hm]; rfl)]
    rw [List.filter_eq_nil_iff.mpr (fun m hm => by
      rw [regexPhase_method m hm]; simp)]
    rw [List.filter_eq_nil_iff.mpr (fun m hm => by
      by_cases ht : 0 < thr
      · rw [if_pos ht] at hm
        rw [fuzzyPhase_method m hm]; simp
      · rw [if_neg ht] at hm
        cases hm)]
    simp
  · intro m1 h1 m2 h2 hf hex
    have hne : m1 ≠ m2 := by
      intro heq
      rw [heq] at hf
      rcases hex with h | h <;> rw [hf] at h <;> simp at h
    exact List.Pairwise.forall spansDisjoint_symm
      (gazMatch_pairwise gaz pats thr text) h1 h2 hne
  · intro m1 h1 m2 h2 hr hex
    have hne : m1 ≠ m2 := by
      intro heq
      rw [heq, hex] at hr
      simp at hr
    exact List.Pairwise.forall spansDisjoint_symm
      (gazMatch_pairwise gaz pats thr text) h1 h2 hne

/-- Witness for C4: a fuzzy match never overlaps an exact match, and a
regex match never overlaps an exact match, on concrete inputs. -/
theorem c4_priority_witness :
    spansDisjoint ⟨"Isoniazi".data, "c", 9, 17, "Isoniazid".data, "fuzzy"⟩
      ⟨"NADH".data, "t", 0, 4, "NADH".data, "exact"⟩ ∧
    spansDisjoint ⟨"Rv1484".data, "accession_number", 9, 15, "Rv1484".data, "regex"⟩
      ⟨"InhA".data, "target", 24, 28, "InhA".data, "exact"⟩ :=
  ⟨(c4_priority [("t", ["NADH".data]), ("c", ["Isoniazid".data])] [] 85
      "NADH and Isoniazi".data).2.1 _ (by decide) _ (by decide) rfl (Or.inl rfl),
   (c4_priority [("target", ["InhA".data])] [(.rvLocus, "Rv locus tag")] 0
      "The gene Rv1484 encodes InhA".data).2.2 _ (by decide) _ (by decide) rfl rfl⟩

/-! ## Empty input (C5) -/

theorem flatMap_nil_of {α β : Type} (l : List α) (f : α → List β)
    (h : ∀ a ∈ l, f a = []) : l.flatMap f = [] := by
  induction l with
  | nil => rfl
  | cons a rest ih =>
    rw [List.flatMap_cons, h a (List.mem_cons_self a rest),
      ih (fun x hx => h x (List.mem_cons_of_mem a hx)), List.nil_append]

theorem variantStep_caseSensitive (term : List Char) (ety : String)
    (s : MatcherState) (v : List Char) :
    (variantStep term ety s v).caseSensitive = s.caseSensitive := by
  unfold variantStep
  dsimp only
  split
  · rfl
  · rfl

theorem foldl_variantStep_caseSensitive (term : List Char) (ety : String) :
    ∀ (vs : List (List Char)) (s : MatcherState),
      (vs.foldl (variantStep term ety) s).caseSensitive = s.caseSensitive := by
  intro vs
  induction vs with
  | nil => intro s; rfl
  | cons v rest ih =>
    intro s
    rw [List.foldl_cons, ih, variantStep_caseSensitive]

theorem mem_dictInsert {k : List Char} {v : List Char × String} :
    ∀ (d : List (List Char × (List Char × String))), ∀ kv ∈ dictInsert k v d,
      kv ∈ d ∨ kv.1 = k := by
  intro d
  induction d with
  | nil =>
    intro kv h
    rcases List.mem_cons.mp h with h1 | h1
    · subst h1; exact Or.inr rfl
    · cases h1
  | cons e rest ih =>
    intro kv h
    rw [dictInsert] at h
    by_cases he : e.1 = k
    · rw [if_pos he] at h
      rcases List.mem_cons.mp h with h1 | h1
      · subst h1; exact Or.inr rfl
      · exact Or.inl (List.mem_cons_of_mem e h1)
    · rw [if_neg he] at h
      rcases List.mem_cons.mp h with h1 | h1
      · subst h1; exact Or.inl (List.mem_cons_self kv rest)
      · rcases ih kv h1 with h2 | h2
        · exact Or.inl (List.mem_cons_of_mem e h2)
        · exact Or.inr h2

theorem insertTerm_caseSensitive (st : MatcherState) (ety : String) (term : List Char) :
    ∀ kv ∈ (insertTerm st ety term).caseSensitive, kv ∈ st.caseSensitive ∨ kv.1 = term := by
  intro kv h
  rw [insertTerm] at h
  simp only at h
  rw [foldl_variantStep_caseSensitive] at h
  exact mem_dictInsert _ kv h

theorem termsFold_caseSensitive (ety : String) :
    ∀ (terms : List (List Char)) (st : MatcherState),
      ∀ kv ∈ (terms.foldl (fun s t => insertTerm s ety t) st).caseSensitive,
        kv ∈ st.caseSensitive ∨ kv.1 ∈ terms := by
  intro terms
  induction terms with
  | nil => intro st kv h; exact Or.inl h
  | cons t rest ih =>
    intro st kv h
    rw [List.foldl_cons] at h
    rcases ih _ kv h with h1 | h1
    · rcases insertTerm_caseSensitive st ety t kv h1 with h2 | h2
      · exact Or.inl h2
      · exact Or.inr (h2 ▸ List.mem_cons_self t rest)
    · exact Or.inr (List.mem_cons_of_mem t h1)

theorem buildMatcher_caseSensitive_keys :
    ∀ (gaz : List (String × List (List Char))) (st : MatcherState),
      ∀ kv ∈ (gaz.foldl (fun st e => e.2.foldl (fun s t => insertTerm s e.1 t) st)
          st).caseSensitive,
        kv ∈ st.caseSensitive ∨ ∃ e ∈ gaz, kv.1 ∈ e.2 := by
  intro gaz
  induction gaz with
  | nil => intro st kv h; exact Or.inl h
  | cons e rest ih =>
    intro st kv h
    rw [List.foldl_cons] at h
    rcases ih _ kv h with h1 | h1
    · rcases termsFold_caseSensitive e.1 e.2 st kv h1 with h2 | h2
      · exact Or.inl h2
      · exact Or.inr ⟨e, List.mem_cons_self e rest, h2⟩
    · obtain ⟨e', he', hk⟩ := h1
      exact Or.inr ⟨e', List.mem_cons_of_mem e he', hk⟩

/-- Counterexample to claim C5 as stated: a gazetteer containing the
empty-string term produces a zero-width exact match on the empty input
(`"".find("") == 0` and the boundary and overlap checks pass vacuously),
so match("") is not empty for every gazetteer. -/
theorem c5_empty_input_counterexample :
    gazMatch [("x", [[]])] [] 85 [] = [⟨[], "x", 0, 0, [], "exact"⟩] ∧
    gazMatch [("x", [[]])] [] 85 [] ≠ [] :=
  ⟨by decide, by decide⟩

/-- Claim C5 (amended): for every gazetteer all of whose terms are
nonempty (the loader never produces empty terms), match() on the empty
input returns the empty list, whatever the patterns and threshold. -/
theorem c5_empty_input (gaz : List (String × List (List Char)))
    (pats : List (AccPat × String)) (thr : Int)
    (hne : ∀ e ∈ gaz, ∀ t ∈ e.2, t ≠ []) :
    gazMatch gaz pats thr [] = [] := by
  have hcs : csCandidates (buildMatcher gaz).caseSensitive [] = [] := by
    refine flatMap_nil_of _ _ (fun kv hkv => ?_)
    have hk : kv.1 ≠ [] := by
      rcases buildMatcher_caseSensitive_keys gaz MatcherState.empty kv hkv with h | h
      · cases h
      · obtain ⟨e, he, hmem⟩ := h
        exact hne e he kv.1 hmem
    have : csPositions [] kv.1 = [] := by
      rw [csPositions]
      cases hk' : kv.1 with
      | nil => exact absurd hk' hk
      | cons c cs => rfl
    rw [this]
    rfl
  have hnm : normCandidates (buildMatcher gaz).normMap
      (buildMatcher gaz).maxTermLen [] = [] := by
    rw [normCandidates]
    refine flatMap_nil_of _ _ (fun w hw => ?_)
    rw [List.mem_reverse, List.mem_range'_1] at hw
    have : (normalize []).length + 1 - w = 0 := by
      have : normalize [] = [] := by decide
      rw [this]
      simp
      omega
    rw [this]
    rfl
  have hre : regexCandidates pats [] = [] := by
    refine flatMap_nil_of _ _ (fun pe _ => ?_)
    have : finditerAcc pe.1 [] = [] := by
      cases pe.1 <;> decide
    rw [this]
    rfl
  have hexact : exactPhase (buildMatcher gaz) [] [] = ([], []) := by
    rw [exactPhase, hcs, hnm]
    rfl
  have hregex : regexPhase pats [] ([] : List Nat) = ([], []) := by
    rw [regexPhase, hre]
    rfl
  have hfuz : ∀ occ : List Nat,
      fuzzyPhase (buildMatcher gaz).fuzzyTerms thr [] occ = ([], occ) := by
    intro occ
    rw [fuzzyPhase]
    have : fuzzyCandidates (buildMatcher gaz).fuzzyTerms thr [] = [] := by
      rw [fuzzyCandidates]
      have : tokenize [] = [] := by decide
      rw [this]
      rfl
    rw [this]
    rfl
  rw [gazMatch_eq_sort_raw]
  dsimp only [gazMatchRaw]
  rw [hexact]
  dsimp only
  rw [hregex]
  dsimp only
  by_cases ht : 0 < thr
  · rw [if_pos ht, hfuz]; rfl
  · rw [if_neg ht]; rfl

/-- Witness for the amended C5 at a concrete nonempty gazetteer. -/
theorem c5_empty_input_witness :
    gazMatch [("target", ["InhA".data])] [] 85 [] = [] :=
  c5_empty_input [("target", ["InhA".data])] [] 85 (by decide)

/-! ## Normalized-lookup collisions (C2) -/

/-- One attempted insertion into the normalized lookup: inserted only when
the key is truthy and absent (`if norm and norm not in self._norm_to_canonical`). -/
def attemptInsert (m : List (List Char × (List Char × String)))
    (e : List Char × (List Char × String)) : List (List Char × (List Char × String)) :=
  if e.1 ≠ [] ∧ (lookupA m e.1).isNone then m ++ [e] else m

/-- The insertion attempts produced by one term, in construction order. -/
def variantStream (term : List Char) (ety : String) :
    List (List Char × (List Char × String)) :=
  (expandVariants term).map (fun v => (normalize v, (term, ety)))

/-- All insertion attempts into the normalized lookup, in the order the
constructor performs them (gazetteer order, then term order, then
variant order). -/
def insertionStream (gaz : List (String × List (List Char))) :
    List (List Char × (List Char × String)) :=
  gaz.flatMap (fun e => e.2.flatMap (fun t => variantStream t e.1))

theorem variantStep_normMap (term : List Char) (ety : String) (s : MatcherState)
    (v : List Char) :
    (variantStep term ety s v).normMap = attemptInsert s.normMap (normalize v, (term, ety)) := by
  unfold variantStep attemptInsert
  dsimp only
  by_cases h : normalize v ≠ [] ∧ ((lookupA s.normMap (normalize v)).isNone = true)
  · rw [if_pos h, if_pos h]
  · rw [if_neg h, if_neg h]

theorem foldl_variantStep_normMap (term : List Char) (ety : String) :
    ∀ (vs : List (List Char)) (s : MatcherState),
      (vs.foldl (variantStep term ety) s).normMap =
        (vs.map (fun v => (normalize v, (term, ety)))).foldl attemptInsert s.normMap := by
  intro vs
  induction vs with
  | nil => intro s; rfl
  | cons v rest ih =>
    intro s
    rw [List.foldl_cons, List.map_cons, List.foldl_cons, ih, variantStep_normMap]

theorem insertTerm_normMap (st : MatcherState) (ety : String) (term : List Char) :
    (insertTerm st ety term).normMap = (variantStream term ety).foldl attemptInsert st.normMap := by
  rw [insertTerm]
  dsimp only
  rw [foldl_variantStep_normMap, variantStream]

theorem termsFold_normMap (ety : String) :
    ∀ (terms : List (List Char)) (st : MatcherState),
      (terms.foldl (fun s t => insertTerm s ety t) st).normMap =
        (terms.flatMap (fun t => variantStream t ety)).foldl attemptInsert st.normMap := by
  intro terms
  induction terms with
  | nil => intro st; rfl
  | cons t rest ih =>
    intro st
    rw [List.foldl_cons, ih, List.flatMap_cons, List.foldl_append, insertTerm_normMap]

theorem buildMatcher_normMap :
    ∀ (gaz : List (String × List (List Char))) (st : MatcherState),
      (gaz.foldl (fun st e => e.2.foldl (fun s t => insertTerm s e.1 t) st) st).normMap =
        (insertionStream gaz).foldl attemptInsert st.normMap := by
  intro gaz
  induction gaz with
  | nil => intro st; rfl
  | cons e rest ih =>
    intro st
    rw [List.foldl_cons, ih]
    rw [show insertionStream (e :: rest) =
        (e.2.flatMap fun t => variantStream t e.1) ++ insertionStream rest by
      rw [insertionStream, List.flatMap_cons, insertionStream]]
    rw [List.foldl_append, termsFold_normMap]

theorem find?_attemptInsert_preserves {m0 : List (List Char × (List Char × String))}
    {e : List Char × (List Char × String)} {k : List Char}
    {ent : List Char × (List Char × String)}
    (h : m0.find? (fun x => x.1 = k) = some ent) :
    (attemptInsert m0 e).find? (fun x => x.1 = k) = some ent := by
  rw [attemptInsert]
  split
  · rw [List.find?_append, h]
    rfl
  · exact h

theorem find?_foldl_attemptInsert_preserves {k : List Char}
    {ent : List Char × (List Char × String)} :
    ∀ (s : List (List Char × (List Char × String)))
      (m0 : List (List Char × (List Char × String))),
      m0.find? (fun x => x.1 = k) = some ent →
      (s.foldl attemptInsert m0).find? (fun x => x.1 = k) = some ent := by
  intro s
  induction s with
  | nil => intro m0 h; exact h
  | cons e rest ih =>
    intro m0 h
    rw [List.foldl_cons]
    exact ih _ (find?_attemptInsert_preserves h)

theorem find?_foldl_attemptInsert {k : List Char} :
    ∀ (s : List (List Char × (List Char × String)))
      (m0 : List (List Char × (List Char × String))),
      m0.find? (fun x => x.1 = k) = none →
      (s.foldl attemptInsert m0).find? (fun x => x.1 = k) =
        (s.filter (fun x => decide (x.1 ≠ []))).find? (fun x => x.1 = k) := by
  intro s
  induction s with
  | nil => intro m0 h; rw [List.foldl_nil, List.filter_nil, h, List.find?_nil]
  | cons e rest ih =>
    intro m0 hm0
    rw [List.foldl_cons, List.filter_cons]
    by_cases he : e.1 = []
    · rw [if_neg (by simp [he])]
      have : attemptInsert m0 e = m0 := by
        rw [attemptInsert, if_neg (by simp [he])]
      rw [this]
      exact ih m0 hm0
    · rw [if_pos (by simp [he])]
      by_cases hlk : (lookupA m0 e.1).isNone = true
      · have hins : attemptInsert m0 e = m0 ++ [e] := by
          rw [attemptInsert, if_pos ⟨he, hlk⟩]
        rw [hins]
        by_cases hek : e.1 = k
        · have hfind : (m0 ++ [e]).find? (fun x => x.1 = k) = some e := by
            rw [List.find?_append, hm0]
            simp [List.find?, hek]
          rw [find?_foldl_attemptInsert_preserves rest _ hfind,
            List.find?_cons_of_pos _ (by simp [hek])]
        · have hfind : (m0 ++ [e]).find? (fun x => x.1 = k) = none := by
            rw [List.find?_append, hm0]
            simp [List.find?, hek]
          rw [ih _ hfind, List.find?_cons_of_neg _ (by simp [hek])]
      · have hins : attemptInsert m0 e = m0 := by
          rw [attemptInsert, if_neg (by intro hc; exact absurd hc.2 hlk)]
        rw [hins]
        have hek : e.1 ≠ k := by
          intro hek
          rw [lookupA] at hlk
          rw [hek, hm0] at hlk
          simp at hlk
        rw [ih m0 hm0, List.find?_cons_of_neg _ (by simp [hek])]

/-- Counterexample to claim C2 as stated: gazetteer `{"t": ["ABC", "abc"]}`
makes the variant expansions of both terms collide at the normalized
variant `"abc"`; the lookup maps it to the earlier pair `("ABC", "t")`,
not to the most-recently-inserted pair `("abc", "t")`. -/
theorem c2_collision_counterexample :
    lookupA (buildMatcher [("t", ["ABC".data, "abc".data])]).normMap "abc".data
        = some ("ABC".data, "t") ∧
    lookupA (buildMatcher [("t", ["ABC".data, "abc".data])]).normMap "abc".data
        ≠ some ("abc".data, "t") :=
  ⟨by decide, by decide⟩

/-- Claim C2 (amended): the normalized-variant lookup is first-write-wins
(`if norm and norm not in …`): for every gazetteer and variant, the lookup
equals the first entry of the construction-order insertion stream (term
order, then variant order; empty normalized variants skipped) whose
normalized variant is that key — so on a collision the earliest inserted
(canonical, category) pair wins, not the most recent one. -/
theorem c2_collision_first_write_wins (gaz : List (String × List (List Char)))
    (v : List Char) :
    lookupA (buildMatcher gaz).normMap v =
      (((insertionStream gaz).filter (fun e => decide (e.1 ≠ []))).find?
          (fun e => e.1 = v)).map (fun e => e.2) := by
  rw [lookupA, buildMatcher, buildMatcher_normMap]
  rw [find?_foldl_attemptInsert (insertionStream gaz) MatcherState.empty.normMap (by rfl)]

/-! ## Fuzzy acceptance conditions (C6) -/

theorem mem_fuzzyCandidates {ft : List (List Char × String)} {thr : Int}
    {text : List Char} {m : Match} (h : m ∈ fuzzyCandidates ft thr text) :
    ∃ se : Nat × Nat, isEntityLike (slice text se.1 se.2) = true ∧
      scoreGeInt (fuzzyScan ft (slice text se.1 se.2)).score thr = true ∧
      m = ⟨slice text se.1 se.2, (fuzzyScan ft (slice text se.1 se.2)).entity_type,
        se.1, se.2, (fuzzyScan ft (slice text se.1 se.2)).canonical, "fuzzy"⟩ := by
  rw [fuzzyCandidates, List.mem_filterMap] at h
  obtain ⟨se, _, hsome⟩ := h
  simp only at hsome
  refine ⟨se, ?_⟩
  split at hsome
  · cases hsome
  · split at hsome
    · rename_i hgate hs
      cases hsome
      exact ⟨by simpa using hgate, hs, rfl⟩
    · cases hsome

theorem foldl_fuzzyStep_inv (token : List Char) :
    ∀ (l : List (List Char × String)) (b : FuzzyBest),
      (b = ⟨(0, 1), [], ""⟩ ∨
        ((7 * max b.canonical.length 1 ≤ 10 * token.length ∧
          10 * token.length ≤ 14 * max b.canonical.length 1) ∧
         b.score = fuzzScore (token.map pyLower) (b.canonical.map pyLower))) →
      (l.foldl (fuzzyStep token) b = ⟨(0, 1), [], ""⟩ ∨
        ((7 * max (l.foldl (fuzzyStep token) b).canonical.length 1 ≤ 10 * token.length ∧
          10 * token.length ≤
            14 * max (l.foldl (fuzzyStep token) b).canonical.length 1) ∧
         (l.foldl (fuzzyStep token) b).score =
           fuzzScore (token.map pyLower)
             ((l.foldl (fuzzyStep token) b).canonical.map pyLower))) := by
  intro l
  induction l with
  | nil => intro b hb; exact hb
  | cons ce rest ih =>
    intro b hb
    rw [List.foldl_cons]
    refine ih _ ?_
    rw [fuzzyStep]
    dsimp only
    split
    · exact hb
    · rename_i hfil
      split
      · refine Or.inr ⟨?_, rfl⟩
        simp only [Bool.or_eq_true, decide_eq_true_eq, not_or, not_lt] at hfil
        dsimp only
        constructor
        · omega
        · omega
      · exact hb

/-- The running best of the fuzzy candidate loop either is still the
initial state or records a candidate that passed the length pre-filter
together with its exact score. -/
theorem fuzzyScan_spec (ft : List (List Char × String)) (token : List Char) :
    fuzzyScan ft token = ⟨(0, 1), [], ""⟩ ∨
      ((7 * max (fuzzyScan ft token).canonical.length 1 ≤ 10 * token.length ∧
        10 * token.length ≤ 14 * max (fuzzyScan ft token).canonical.length 1) ∧
       (fuzzyScan ft token).score =
         fuzzScore (token.map pyLower) ((fuzzyScan ft token).canonical.map pyLower)) :=
  foldl_fuzzyStep_inv token ft ⟨(0, 1), [], ""⟩ (Or.inl rfl)

/-- Counterexample to claim C6 as stated: with threshold 80, gazetteer
`{"c": ["abcdefghij"]}` and input `"abcdefg"`, a fuzzy match is produced
whose canonical term (length 10) is not within a 0.7–1.4 ratio of the
matched token (length 7): 10/7 > 1.4.  (The code filters on
`len(token)/max(len(canonical),1)`, the reciprocal direction.) -/
theorem c6_fuzzy_ratio_counterexample :
    gazMatch [("c", ["abcdefghij".data])] [] 80 "abcdefg".data
        = [⟨"abcdefg".data, "c", 0, 7, "abcdefghij".data, "fuzzy"⟩] ∧
    ¬(7 * ("abcdefg".data).length ≤ 10 * ("abcdefghij".data).length ∧
      10 * ("abcdefghij".data).length ≤ 14 * ("abcdefg".data).length) :=
  ⟨by decide, by decide⟩

/-- Claim C6 (amended): for every fuzzy match of a match() result, the
token length is within a 0.7–1.4 ratio of `max(len(canonical), 1)` —
`0.7 ≤ len(token)/max(len(canonical),1) ≤ 1.4`, i.e. the code's
pre-filter direction — and the case-insensitive normalized edit
similarity (0–100 scale) between the token and the resolved canonical
term is at least the configured threshold. -/
theorem c6_fuzzy_filter (gaz : List (String × List (List Char)))
    (pats : List (AccPat × String)) (thr : Int) (text : List Char) :
    ∀ m ∈ gazMatch gaz pats thr text, m.match_method = "fuzzy" →
      (7 * max m.canonical.length 1 ≤ 10 * m.text.length ∧
       10 * m.text.length ≤ 14 * max m.canonical.length 1) ∧
      scoreGeInt (fuzzScore (m.text.map pyLower) (m.canonical.map pyLower)) thr = true := by
  intro m hm hmeth
  rw [gazMatch_eq_sort_raw] at hm
  have hraw : m ∈ gazMatchRaw gaz pats thr text :=
    (List.perm_insertionSort matchLe _).mem_iff.mp hm
  rw [gazMatchRaw] at hraw
  rcases List.mem_append.mp hraw with hef | hf
  · exfalso
    rcases List.mem_append.mp hef with he | hr
    · rw [exactPhase_method m he] at hmeth; simp at hmeth
    · rw [regexPhase_method m hr] at hmeth; simp at hmeth
  · by_cases ht : 0 < thr
    · rw [if_pos ht] at hf
      have hc := claimAll_subset m hf
      obtain ⟨se, hgate, hscore, heq⟩ := mem_fuzzyCandidates hc
      rcases fuzzyScan_spec (buildMatcher gaz).fuzzyTerms (slice text se.1 se.2) with
        hinit | ⟨hratio, hsc⟩
      · exfalso
        rw [hinit] at hscore
        rw [scoreGeInt] at hscore
        simp at hscore
        omega
      · subst heq
        refine ⟨hratio, ?_⟩
        rw [← hsc]
        exact hscore
    · rw [if_neg ht] at hf
      cases hf

/-- Witness for the amended C6 on the Scenario D input at the default
threshold. -/
theorem c6_fuzzy_filter_witness :
    (7 * max ("Isoniazid".data).length 1 ≤ 10 * ("Isoniazi".data).length ∧
     10 * ("Isoniazi".data).length ≤ 14 * max ("Isoniazid".data).length 1) ∧
    scoreGeInt (fuzzScore ("Isoniazi".data.map pyLower)
      ("Isoniazid".data.map pyLower)) 85 = true :=
  c6_fuzzy_filter [("compound_name", ["Isoniazid".data])] [] 85
    "Isoniazi was administered".data
    ⟨"Isoniazi".data, "compound_name", 0, 8, "Isoniazid".data, "fuzzy"⟩
    (by decide) rfl

/-! ## derive_accession_patterns (`_loader.py`, C9) -/

/-- The anchored seed-detection regexes of `_ACCESSION_PATTERNS`
(`seed_re.match(term)` with `^...$` patterns, so full-string matches). -/
def seedMatch (pat : AccPat) (t : List Char) : Bool :=
  match pat with
  | .rvLocus =>
    match t with
    | 'R' :: 'v' :: d1 :: d2 :: d3 :: d4 :: rest =>
      isAsciiDigit d1 && isAsciiDigit d2 && isAsciiDigit d3 && isAsciiDigit d4 &&
        (decide (rest = []) || decide (rest = ['c']))
    | _ => false
  | .mycoMT =>
    match t with
    | 'M' :: 'T' :: rest => !rest.isEmpty && rest.all pyIsWordChar
    | _ => false
  | .uniProt =>
    match t with
    | [a, b, c, d, e, f] =>
      (a = 'O' || a = 'P' || a = 'Q') && isAsciiDigit b && isUpperDigit c &&
        isUpperDigit d && isUpperDigit e && isAsciiDigit f
    | _ => false
  | .pdbCode =>
    match t with
    | [a, b, c, d] => isAsciiDigit a && isUpperDigit b && isUpperDigit c && isUpperDigit d
    | _ => false
  | .refseqWP =>
    match t with
    | 'W' :: 'P' :: '_' :: rest => !rest.isEmpty && rest.all isAsciiDigit
    | _ => false

/-- The fixed, ordered rule table `_ACCESSION_PATTERNS` (seed regex paired
with the word-boundary-anchored full pattern and its description). -/
def ACCESSION_PATTERNS : List (AccPat × String) :=
  [(.rvLocus, "Rv locus tag"), (.mycoMT, "Mycobrowser ID"),
   (.uniProt, "UniProt accession"), (.pdbCode, "PDB code"),
   (.refseqWP, "NCBI RefSeq")]

/-- The inner `for seed_re, full_re, description in _ACCESSION_PATTERNS`
loop of `derive_accession_patterns`, threading the `seen_descriptions`
set. -/
def deriveScanTerm (t : List Char) :
    List (AccPat × String) → List String → List (AccPat × String) × List String
  | [], seen => ([], seen)
  | r :: rules, seen =>
    if ¬(seen.contains r.2 = true) ∧ seedMatch r.1 t = true then
      let res := deriveScanTerm t rules (r.2 :: seen)
      (r :: res.1, res.2)
    else deriveScanTerm t rules seen

def deriveAux : List (List Char) → List String → List (AccPat × String)
  | [], _ => []
  | t :: ts, seen =>
    let res := deriveScanTerm t ACCESSION_PATTERNS seen
    res.1 ++ deriveAux ts res.2

/-- `derive_accession_patterns` from `_loader.py`. -/
def derive_accession_patterns (terms : List (List Char)) : List (AccPat × String) :=
  deriveAux terms []

/-- Modelled from the spec's words ("once a description has produced a
pattern, skip further seeds mapping to the same description; output in
first-detection order"): the raw detection stream in scan order. -/
def detections (terms : List (List Char)) : List (AccPat × String) :=
  terms.flatMap (fun t => ACCESSION_PATTERNS.filter (fun r => seedMatch r.1 t))

/-- Modelled from the spec's words: keep the first occurrence of each
description, dropping all later ones. -/
def dedupKeepFirst : List (AccPat × String) → List (AccPat × String)
  | [] => []
  | e :: rest => e :: dedupKeepFirst (rest.filter (fun r => decide (r.2 ≠ e.2)))
termination_by l => l.length
decreasing_by
  simp only [List.length_cons]
  exact Nat.lt_succ_of_le (List.length_filter_le _ _)

/-- Seen-set threading of the first-occurrence dedup, for the refinement
proof. -/
def dedupAux : List (AccPat × String) → List String → List (AccPat × String) × List String
  | [], seen => ([], seen)
  | e :: rest, seen =>
    if seen.contains e.2 = true then dedupAux rest seen
    else
      let res := dedupAux rest (e.2 :: seen)
      (e :: res.1, res.2)

theorem deriveScanTerm_eq_dedupAux (t : List Char) :
    ∀ (table : List (AccPat × String)) (seen : List String),
      deriveScanTerm t table seen =
        dedupAux (table.filter (fun r => seedMatch r.1 t)) seen := by
  intro table
  induction table with
  | nil => intro seen; rfl
  | cons r rules ih =>
    intro seen
    rw [deriveScanTerm, List.filter_cons]
    by_cases hs : seedMatch r.1 t = true
    · rw [if_pos hs, dedupAux]
      by_cases hc : seen.contains r.2 = true
      · rw [if_neg (by intro hcon; exact hcon.1 hc), if_pos hc]
        exact ih seen
      · rw [if_pos ⟨hc, hs⟩, if_neg hc]
        rw [ih (r.2 :: seen)]
    · rw [if_neg (by intro hcon; exact hs hcon.2), if_neg (by simpa using hs)]
      exact ih seen

theorem dedupAux_append :
    ∀ (a b : List (AccPat × String)) (seen : List String),
      dedupAux (a ++ b) seen =
        ((dedupAux a seen).1 ++ (dedupAux b (dedupAux a seen).2).1,
         (dedupAux b (dedupAux a seen).2).2) := by
  intro a
  induction a with
  | nil => intro b seen; rfl
  | cons e rest ih =>
    intro b seen
    rw [List.cons_append, dedupAux, dedupAux]
    by_cases hc : seen.contains e.2 = true
    · rw [if_pos hc, if_pos hc]
      exact ih b seen
    · rw [if_neg hc, if_neg hc]
      rw [ih b (e.2 :: seen)]
      rfl

theorem deriveAux_eq_dedupAux :
    ∀ (terms : List (List Char)) (seen : List String),
      deriveAux terms seen = (dedupAux (detections terms) seen).1 := by
  intro terms
  induction terms with
  | nil => intro seen; rfl
  | cons t ts ih =>
    intro seen
    rw [deriveAux, detections, List.flatMap_cons, dedupAux_append]
    rw [deriveScanTerm_eq_dedupAux]
    rw [ih]
    rfl

theorem dedupAux_eq_dedupKeepFirst :
    ∀ (l : List (AccPat × String)) (seen : List String),
      (dedupAux l seen).1 =
        dedupKeepFirst (l.filter (fun e => !(seen.contains e.2))) := by
  intro l
  induction l with
  | nil => intro seen; simp [dedupAux, dedupKeepFirst]
  | cons e rest ih =>
    intro seen
    rw [dedupAux, List.filter_cons]
    by_cases hc : seen.contains e.2 = true
    · have hmem : e.2 ∈ seen := by simpa using hc
      rw [if_pos hc, if_neg (by simp [hmem])]
      exact ih seen
    · have hnm : ¬e.2 ∈ seen := by simpa using hc
      rw [if_neg hc, if_pos (by simp [hnm])]
      dsimp only
      rw [dedupKeepFirst]
      have hfil : rest.filter (fun x => !((e.2 :: seen).contains x.2)) =
          (rest.filter (fun x => !(seen.contains x.2))).filter
            (fun x => decide (x.2 ≠ e.2)) := by
        rw [List.filter_filter]
        refine List.filter_congr (fun x _ => ?_)
        rw [List.contains_cons]
        by_cases hx : x.2 = e.2 <;> simp [hx]
      rw [ih (e.2 :: seen), hfil]

theorem dedupKeepFirst_subset :
    ∀ (l : List (AccPat × String)), ∀ x ∈ dedupKeepFirst l, x ∈ l := by
  intro l
  induction l using dedupKeepFirst.induct with
  | case1 =>
    intro x h
    rw [dedupKeepFirst] at h
    cases h
  | case2 e rest ih =>
    intro x h
    rw [dedupKeepFirst] at h
    rcases List.mem_cons.mp h with h1 | h1
    · exact h1 ▸ List.mem_cons_self e rest
    · exact List.mem_cons_of_mem e (List.mem_of_mem_filter (ih x h1))

theorem dedupKeepFirst_nodup :
    ∀ (l : List (AccPat × String)), ((dedupKeepFirst l).map (fun r => r.2)).Nodup := by
  intro l
  induction l using dedupKeepFirst.induct with
  | case1 => simp [dedupKeepFirst]
  | case2 e rest ih =>
    rw [dedupKeepFirst, List.map_cons]
    refine List.Pairwise.cons ?_ ih
    intro d hd
    rw [List.mem_map] at hd
    obtain ⟨x, hx, hxd⟩ := hd
    have := List.of_mem_filter (dedupKeepFirst_subset _ x hx)
    rw [decide_eq_true_eq] at this
    subst hxd
    exact fun he => this he.symm

/-- Claim C9: derive_accession_patterns keeps at most one (pattern,
description) pair per description, and equals the first-occurrence
deduplication of the raw detection stream (term order, inner table
order), i.e. the pairs appear in first-detection order. -/
theorem c9_derive_first_detection (terms : List (List Char)) :
    derive_accession_patterns terms = dedupKeepFirst (detections terms) ∧
    ((derive_accession_patterns terms).map (fun r => r.2)).Nodup := by
  have h1 : derive_accession_patterns terms = dedupKeepFirst (detections terms) := by
    rw [derive_accession_patterns, deriveAux_eq_dedupAux, dedupAux_eq_dedupKeepFirst]
    have : (detections terms).filter (fun e => !(([] : List String).contains e.2)) =
        detections terms := by
      rw [List.filter_eq_self]
      intro a _
      rfl
    rw [this]
  refine ⟨h1, ?_⟩
  rw [h1]
  exact dedupKeepFirst_nodup _

/-! ## load_gazetteer (`_loader.py`, C10) -/

/-- A parsed YAML document (the shapes `yaml.safe_load` can return that
matter to the loader). -/
inductive Yaml where
  | null
  | bool (b : Bool)
  | int (n : Int)
  | str (s : List Char)
  | list (items : List Yaml)

/-- Python `type(v).__name__`. -/
def typeName : Yaml → List Char
  | .null => "NoneType".data
  | .bool _ => "bool".data
  | .int _ => "int".data
  | .str _ => "str".data
  | .list _ => "list".data

mutual

/-- Python `str(v)` of a parsed YAML node. -/
def yamlStr : Yaml → List Char
  | .null => "None".data
  | .bool b => if b then "True".data else "False".data
  | .int n => (toString n).data
  | .str s => s
  | .list items => '[' :: (yamlListBody items ++ [']'])

/-- Python `repr(v)` as used for elements inside a list rendering
(strings are quoted, everything else renders as `str`). -/
def yamlReprE : Yaml → List Char
  | .str s => '\'' :: (s ++ ['\''])
  | .null => "None".data
  | .bool b => if b then "True".data else "False".data
  | .int n => (toString n).data
  | .list items => '[' :: (yamlListBody items ++ [']'])

def yamlListBody : List Yaml → List Char
  | [] => []
  | [v] => yamlReprE v
  | v :: rest => yamlReprE v ++ (", ".data ++ yamlListBody rest)

end

/-- Python `Path(name).stem`: the file name minus its last suffix (a
leading dot is not a suffix). -/
def stemOf (name : List Char) : List Char :=
  match name.reverse.findIdx? (fun c => c = '.') with
  | some k =>
    let dotPos := name.length - 1 - k
    if dotPos = 0 then name else name.take dotPos
  | none => name

/-- The list comprehension of `load_gazetteer`:
`[str(t).strip() for t in terms if t is not None and str(t).strip()]`. -/
def cleanEntry (t : Yaml) : Option (List Char) :=
  match t with
  | .null => none
  | v => if stripWs (yamlStr v) = [] then none else some (stripWs (yamlStr v))

/-- `load_gazetteer` from `_loader.py`, applied to the parsed content of
the file named `fileName`. -/
def load_gazetteer (fileName : List Char) (parsed : Yaml) :
    Except (List Char) (List Char × List (List Char)) :=
  match parsed with
  | .list items => .ok (stemOf fileName, items.filterMap cleanEntry)
  | other =>
    .error ("Gazetteer ".data ++ fileName ++
      (" must be a YAML list, got ".data ++ typeName other))

/-- Claim C10: loading a parsed gazetteer that is not a list fails with a
format error whose message names the offending source file and returns no
terms; loading a list succeeds, coercing entries to stripped strings and
silently dropping every `None`, empty, or whitespace-only entry (every
returned term is nonempty and fully stripped). -/
theorem c10_load_gazetteer (name : List Char) (parsed : Yaml) :
    ((∀ items, parsed ≠ .list items) →
      ∃ suffix, load_gazetteer name parsed =
        .error ("Gazetteer ".data ++ name ++ suffix)) ∧
    (∀ items, parsed = .list items →
      load_gazetteer name parsed = .ok (stemOf name, items.filterMap cleanEntry) ∧
      ∀ s ∈ items.filterMap cleanEntry, s ≠ [] ∧ stripWs s = s) := by
  constructor
  · intro hnl
    cases parsed with
    | list items => exact absurd rfl (hnl items)
    | null => exact ⟨_, rfl⟩
    | bool b => exact ⟨_, rfl⟩
    | int n => exact ⟨_, rfl⟩
    | str s => exact ⟨_, rfl⟩
  · intro items hp
    subst hp
    refine ⟨rfl, ?_⟩
    intro s hs
    rw [List.mem_filterMap] at hs
    obtain ⟨t, _, hct⟩ := hs
    rw [cleanEntry.eq_def] at hct
    split at hct
    · cases hct
    · rename_i v hne
      split at hct
      · cases hct
      · rename_i hv
        cases hct
        exact ⟨hv, stripWs_eq_self (headNotSpace_stripWs _) (lastNotSpace_stripWs _)⟩

/-- Witness for C10: a non-list document fails naming the file; a list
with blank and `None` entries loads with those entries dropped. -/
theorem c10_load_gazetteer_witness :
    (∃ suffix, load_gazetteer "targets.yml".data (.int 3) =
      .error ("Gazetteer ".data ++ "targets.yml".data ++ suffix)) ∧
    load_gazetteer "targets.yml".data
        (.list [.str " InhA ".data, .null, .str "   ".data, .str "NADH".data, .int 7]) =
      .ok (stemOf "targets.yml".data,
        ([.str " InhA ".data, .null, .str "   ".data, .str "NADH".data,
          .int 7] : List Yaml).filterMap cleanEntry) :=
  ⟨(c10_load_gazetteer "targets.yml".data (.int 3)).1 (fun items h => by cases h),
   ((c10_load_gazetteer "targets.yml".data _).2 _ rfl).1⟩
